import Mathlib

/-!
# Verification of the RAM-table subsystem of `tvm-gpu`

A shallow embedding, in Lean 4, of the RAM-table construction of the
`tvm-gpu` repository (`src/triton-vm/src/table/ram_table.rs` and
`src/triton-vm/src/vm.rs`) together with proofs and refutations of the
specified properties.

The base field of the virtual machine is the Goldilocks prime field with
modulus `2^64 - 2^32 + 1` (`BFieldElement` of the `twenty_first` crate);
we embed it as `ZMod goldilocks` and prove the modulus prime via a Lucas
certificate so that the field structure is available.
-/

set_option maxRecDepth 8000

/-- The Goldilocks prime `2^64 - 2^32 + 1`, the modulus of `BFieldElement`. -/
def goldilocks : ℕ := 18446744069414584321

/-- Fuelled binary modular exponentiation on `ℕ`, used to make the Lucas
primality certificate for `goldilocks` kernel-checkable. -/
def powModAux (m : ℕ) : ℕ → ℕ → ℕ → ℕ
  | 0, _, _ => 1 % m
  | f + 1, a, n =>
    if n = 0 then 1 % m
    else
      let r := powModAux m f (a * a % m) (n / 2)
      if n % 2 = 1 then (a % m) * r % m else r

theorem powModAux_eq (m : ℕ) :
    ∀ f a n, n < 2 ^ f → powModAux m f a n = a ^ n % m := by
  intro f
  induction f with
  | zero =>
    intro a n hn
    interval_cases n
    simp [powModAux]
  | succ f ih =>
    intro a n hn
    by_cases h0 : n = 0
    · simp [powModAux, h0]
    · have hhalf : n / 2 < 2 ^ f := by
        have h2 : n < 2 ^ f * 2 := by rw [pow_succ] at hn; exact hn
        omega
      have hr : powModAux m f (a * a % m) (n / 2) = (a * a % m) ^ (n / 2) % m := ih _ _ hhalf
      have hsq : (a * a % m) ^ (n / 2) % m = a ^ (2 * (n / 2)) % m := by
        rw [← Nat.pow_mod, ← pow_two, ← pow_mul]
      rcases Nat.even_or_odd n with he | ho
      · have h2 : n % 2 = 0 := Nat.even_iff.mp he
        have hn2 : 2 * (n / 2) = n := by omega
        simp only [powModAux, h0, if_false, h2, if_neg (by omega : ¬(0 = 1))]
        rw [hr, hsq, hn2]
      · have h2 : n % 2 = 1 := Nat.odd_iff.mp ho
        have hn2 : 2 * (n / 2) = n - 1 := by omega
        simp only [powModAux, h0, if_false, h2, if_true]
        rw [hr, hsq, hn2, ← Nat.mul_mod, ← pow_succ']
        have hn3 : n - 1 + 1 = n := by omega
        rw [hn3]

theorem goldilocks_sub_one_factorization :
    goldilocks - 1 = 2 ^ 32 * (3 * (5 * (17 * (257 * 65537)))) := by decide

theorem goldilocks_prime : Nat.Prime goldilocks := by
  have h65537 : Nat.Prime 65537 := by norm_num
  have h257 : Nat.Prime 257 := by norm_num
  apply lucas_primality goldilocks (7 : ZMod goldilocks)
  · have h7 : ((7 : ℕ) : ZMod goldilocks) ^ (goldilocks - 1) = 1 := by
      rw [← Nat.cast_pow, show (1 : ZMod goldilocks) = ((1 : ℕ) : ZMod goldilocks) by simp,
        ZMod.natCast_eq_natCast_iff]
      have hlt : goldilocks - 1 < 2 ^ 64 := by decide
      have := (powModAux_eq goldilocks 64 7 (goldilocks - 1) hlt).symm
      unfold Nat.ModEq
      rw [this]
      decide
    simpa using h7
  · intro q hq hdvd
    have hmem : q = 2 ∨ q = 3 ∨ q = 5 ∨ q = 17 ∨ q = 257 ∨ q = 65537 := by
      rw [goldilocks_sub_one_factorization] at hdvd
      rcases (Nat.Prime.dvd_mul hq).mp hdvd with h | h
      · exact Or.inl ((Nat.prime_dvd_prime_iff_eq hq Nat.prime_two).mp
          (Nat.Prime.dvd_of_dvd_pow hq h))
      rcases (Nat.Prime.dvd_mul hq).mp h with h | h
      · exact Or.inr (Or.inl ((Nat.prime_dvd_prime_iff_eq hq Nat.prime_three).mp h))
      rcases (Nat.Prime.dvd_mul hq).mp h with h | h
      · exact Or.inr (Or.inr (Or.inl ((Nat.prime_dvd_prime_iff_eq hq (by norm_num)).mp h)))
      rcases (Nat.Prime.dvd_mul hq).mp h with h | h
      · exact Or.inr (Or.inr (Or.inr (Or.inl
          ((Nat.prime_dvd_prime_iff_eq hq (by norm_num)).mp h))))
      rcases (Nat.Prime.dvd_mul hq).mp h with h | h
      · exact Or.inr (Or.inr (Or.inr (Or.inr (Or.inl
          ((Nat.prime_dvd_prime_iff_eq hq h257).mp h)))))
      · exact Or.inr (Or.inr (Or.inr (Or.inr (Or.inr
          ((Nat.prime_dvd_prime_iff_eq hq h65537).mp h)))))
    have key : ∀ e : ℕ, e < 2 ^ 64 → powModAux goldilocks 64 7 e ≠ 1 % goldilocks →
        ((7 : ZMod goldilocks) : ZMod goldilocks) ^ e ≠ 1 := by
      intro e he hne hcontra
      apply hne
      rw [powModAux_eq goldilocks 64 7 e he]
      have h7 : ((7 : ℕ) : ZMod goldilocks) ^ e = 1 := by simpa using hcontra
      rw [← Nat.cast_pow, show (1 : ZMod goldilocks) = ((1 : ℕ) : ZMod goldilocks) by simp,
        ZMod.natCast_eq_natCast_iff] at h7
      exact h7
    rcases hmem with rfl | rfl | rfl | rfl | rfl | rfl
    · exact key _ (by decide) (by decide)
    · exact key _ (by decide) (by decide)
    · exact key _ (by decide) (by decide)
    · exact key _ (by decide) (by decide)
    · exact key _ (by decide) (by decide)
    · exact key _ (by decide) (by decide)

instance : Fact (Nat.Prime goldilocks) := ⟨goldilocks_prime⟩

/-- `BFieldElement`: the Goldilocks base field of the VM. -/
abbrev BFE : Type := ZMod goldilocks

/-- `BFieldElement::inverse_or_zero`: the multiplicative inverse, with the
convention that the inverse of zero is zero.  Implemented by Fermat
exponentiation through `powModAux` so that the kernel can evaluate it on
concrete inputs; `invOrZero_eq` identifies it with the field inverse. -/
def invOrZero (x : BFE) : BFE := ((powModAux goldilocks 64 x.val (goldilocks - 2) : ℕ) : BFE)

theorem invOrZero_zero : invOrZero 0 = 0 := by decide

theorem invOrZero_eq (x : BFE) : invOrZero x = x⁻¹ := by
  rcases eq_or_ne x 0 with rfl | hx
  · rw [invOrZero_zero, inv_zero]
  · have hbase : invOrZero x = ((x.val ^ (goldilocks - 2) % goldilocks : ℕ) : BFE) := by
      unfold invOrZero
      exact congrArg (fun n : ℕ => (n : BFE))
        (powModAux_eq goldilocks 64 x.val (goldilocks - 2) (by decide))
    have hcast : ((x.val ^ (goldilocks - 2) % goldilocks : ℕ) : BFE) = x ^ (goldilocks - 2) := by
      rw [ZMod.natCast_mod, Nat.cast_pow, ZMod.natCast_val, ZMod.cast_id]
    rw [hbase, hcast]
    refine eq_inv_of_mul_eq_one_right ?_
    rw [← pow_succ']
    have h1 : goldilocks - 2 + 1 = goldilocks - 1 := by decide
    rw [h1]
    exact ZMod.pow_card_sub_one_eq_one hx

theorem mul_invOrZero_cancel {x : BFE} (hx : x ≠ 0) : x * invOrZero x = 1 := by
  rw [invOrZero_eq]; exact mul_inv_cancel₀ hx

/-! ## The extension field

`XFieldElement` of `twenty_first`: the cubic extension
`F_p[x]/(x^3 - x + 1)` of the Goldilocks field, represented by the three
coefficients `c0 + c1·x + c2·x^2`.  Only the ring operations are needed
here; multiplication reduces with `x^3 = x - 1`, `x^4 = x^2 - x`. -/

structure XF where
  c0 : BFE
  c1 : BFE
  c2 : BFE
deriving DecidableEq

namespace XF

instance : Zero XF := ⟨⟨0, 0, 0⟩⟩
instance : One XF := ⟨⟨1, 0, 0⟩⟩
instance : Add XF := ⟨fun a b => ⟨a.c0 + b.c0, a.c1 + b.c1, a.c2 + b.c2⟩⟩
instance : Neg XF := ⟨fun a => ⟨-a.c0, -a.c1, -a.c2⟩⟩
instance : Sub XF := ⟨fun a b => ⟨a.c0 - b.c0, a.c1 - b.c1, a.c2 - b.c2⟩⟩
instance : Mul XF :=
  ⟨fun a b =>
    ⟨a.c0 * b.c0 - (a.c1 * b.c2 + a.c2 * b.c1),
     a.c0 * b.c1 + a.c1 * b.c0 + (a.c1 * b.c2 + a.c2 * b.c1) - a.c2 * b.c2,
     a.c0 * b.c2 + a.c1 * b.c1 + a.c2 * b.c0 + a.c2 * b.c2⟩⟩

end XF

/-- `BFieldElement::lift`: the embedding of the base field into the
extension field (constant coefficient). -/
def BFE.lift (a : BFE) : XF := ⟨a, 0, 0⟩

/-! ## Rows and the algebraic execution trace

The RAM-table base row (`RamBaseTableColumn`).  The column enumeration
itself lives in `table_column.rs`, which is not part of the provided
sources; following the spec's data model (§3) a base row is a record of
the seven named columns, and every column access in `ram_table.rs` is
modelled as access to the field of the same name.  The field names `iord`
(`InverseOfRampDifference`), `bcpc0`/`bcpc1`
(`BezoutCoefficientPolynomialCoefficient0/1`) and `clk_di`
(`InverseOfClkDiffMinusOne`) are the abbreviations the source itself uses
in `ext_transition_constraints_as_circuits`. -/
structure RamRow where
  clk : BFE
  ramp : BFE
  ramv : BFE
  iord : BFE
  bcpc0 : BFE
  bcpc1 : BFE
  clk_di : BFE
deriving DecidableEq

/-- The all-zero RAM-table row: the contents of a freshly allocated
(zero-initialised) table row before `fill_trace` writes to it. -/
def zeroRamRow : RamRow := ⟨0, 0, 0, 0, 0, 0, 0⟩

/-- The RAM-table extension row (`RamExtTableColumn`), modelled like the
base row as a record of the six named extension columns. -/
structure ExtRamRow where
  runningProductOfRamp : XF
  formalDerivative : XF
  bezoutCoefficient0 : XF
  bezoutCoefficient1 : XF
  runningProductPermArg : XF
  allClockJumpDifferencesPermArg : XF
deriving DecidableEq

/-- A processor-table row, restricted to the registers this subsystem
reads (`ProcessorBaseTableColumn::{CLK, RAMP, RAMV}`); the spec's
"register snapshot" (§3) with the registers irrelevant to the RAM table
omitted. -/
structure ProcessorRow where
  clk : BFE
  ramp : BFE
  ramv : BFE
deriving DecidableEq

/-- `AlgebraicExecutionTrace` (vm.rs): the processor trace plus the hash
co-processor trace (opaque rows). -/
structure AlgebraicExecutionTrace where
  processor_matrix : List ProcessorRow
  hash_matrix : List (List BFE)
deriving DecidableEq

/-! ## Grouping by RAMP

`fill_trace` groups the processor rows by `RAMP` into a
`HashMap<_, Vec<_>>` and then iterates over the map.  The iteration order
of Rust's `HashMap` is unspecified; the spec (§3) only requires the blocks
to be contiguous and its design note (§9) prescribes an insertion-ordered
multimap for a faithful reimplementation, so the grouping is modelled as
an insertion-ordered association list: keys appear in order of first
occurrence, and each key's entries keep their trace order. -/

/-- Append `entry` to the group of key `ramp`, or open a new group at the
end. -/
def insertGrouped (acc : List (BFE × List (BFE × BFE))) (ramp : BFE) (entry : BFE × BFE) :
    List (BFE × List (BFE × BFE)) :=
  match acc with
  | [] => [(ramp, [entry])]
  | (k, v) :: rest =>
    if k = ramp then (k, v ++ [entry]) :: rest else (k, v) :: insertGrouped rest ramp entry

/-- The `pre_processed_ram_table` of `fill_trace`: `(CLK, RAMV)` pairs
keyed by `RAMP`. -/
def preProcessedRamTable (rows : List ProcessorRow) : List (BFE × List (BFE × BFE)) :=
  rows.foldl (fun acc r => insertGrouped acc r.ramp (r.clk, r.ramv)) []

/-! ## Polynomials over the base field

`Polynomial<BFieldElement>` of the `twenty_first` crate (an external
dependency of the repository, modelled here from its documented
behaviour): dense coefficient lists, index = degree.  The model keeps
coefficient lists trimmed (no trailing zero coefficient); this is
observationally equivalent — `degree`, `is_one` and the coefficient
values produced by `Vec::resize` in `fill_trace` are unchanged — and
gives canonical representatives.  `xgcd` is the extended Euclidean
algorithm returning a monic gcd together with the Bézout coefficients,
written in its standard recursive form (fuelled on the degree of the
second argument). -/

namespace BPoly

/-- Drop trailing zero coefficients. -/
def trim : List BFE → List BFE
  | [] => []
  | a :: rest =>
    match trim rest with
    | [] => if a = 0 then [] else [a]
    | r => a :: r

/-- A coefficient list with no trailing zero. -/
def Trimmed (p : List BFE) : Prop := p.getLast? ≠ some 0

/-- Coefficient-wise sum (no trimming). -/
def addAux : List BFE → List BFE → List BFE
  | [], q => q
  | p, [] => p
  | a :: p, b :: q => (a + b) :: addAux p q

/-- Polynomial sum. -/
def add (p q : List BFE) : List BFE := trim (addAux p q)

/-- Coefficient-wise negation. -/
def neg (p : List BFE) : List BFE := p.map Neg.neg

/-- Polynomial difference. -/
def sub (p q : List BFE) : List BFE := add p (neg q)

/-- Convolution product (no trimming). -/
def mulAux : List BFE → List BFE → List BFE
  | [], _ => []
  | a :: p, q => addAux (q.map (a * ·)) (0 :: mulAux p q)

/-- Polynomial product. -/
def mul (p q : List BFE) : List BFE := trim (mulAux p q)

/-- Scalar multiple. -/
def scale (c : BFE) (p : List BFE) : List BFE := trim (p.map (c * ·))

/-- `c · x^k`. -/
def monomial (k : ℕ) (c : BFE) : List BFE := List.replicate k 0 ++ [c]

/-- `Polynomial::degree`: the index of the highest nonzero coefficient,
`-1` for the zero polynomial (an `isize` in the source). -/
def degree (p : List BFE) : ℤ := (trim p).length - 1

/-- `Polynomial::is_one`. -/
def isOne (p : List BFE) : Prop := trim p = [1]

instance : DecidablePred isOne := fun p => by unfold isOne; infer_instance

/-- `Polynomial::formal_derivative`. -/
def derivAux : ℕ → List BFE → List BFE
  | _, [] => []
  | i, a :: rest => ((i : BFE) * a) :: derivAux (i + 1) rest

/-- `Polynomial::formal_derivative` (trimmed). -/
def derivative (p : List BFE) : List BFE :=
  match p with
  | [] => []
  | _ :: rest => trim (derivAux 1 rest)

/-- One step of polynomial long division is subtracting
`(lc r / lc y) · x^(deg r - deg y) · y`; the fuel bounds the number of
steps (the length of the dividend suffices). -/
def divModAux (y : List BFE) : ℕ → List BFE → List BFE × List BFE
  | 0, r => ([], trim r)
  | f + 1, r =>
    let r' := trim r
    let y' := trim y
    if r'.length < y'.length then ([], r')
    else
      let c := r'.getLastD 0 * invOrZero (y'.getLastD 0)
      let k := r'.length - y'.length
      let m := monomial k c
      let rnew := sub r' (mul m y')
      let qr := divModAux y f rnew
      (add m qr.1, qr.2)

/-- `Polynomial::divide`: quotient and remainder. -/
def divMod (x y : List BFE) : List BFE × List BFE := divModAux y (trim x).length x

/-- Extended Euclidean algorithm (`Polynomial::xgcd`), recursive form:
returns `(g, u, v)` with `u·x + v·y = g` and `g` the monic gcd (for
`x = y = 0` it returns `(0, 1, 0)`, as the source's normalisation with
`unwrap_or(one)` does). -/
def xgcdAux : ℕ → List BFE → List BFE → List BFE × List BFE × List BFE
  | 0, _, _ => ([], [], [])
  | f + 1, x, y =>
    if trim y = [] then
      let x' := trim x
      let lc := x'.getLastD 1
      (scale (invOrZero lc) x', trim [invOrZero lc], [])
    else
      let qr := divMod x y
      let guv := xgcdAux f y qr.2
      (guv.1, guv.2.2, sub guv.2.1 (mul qr.1 guv.2.2))

/-- `Polynomial::xgcd`. -/
def xgcd (x y : List BFE) : List BFE × List BFE × List BFE :=
  xgcdAux ((trim y).length + 1) x y

/-- `Vec::resize(n, 0)`: truncate or pad with zeros to length exactly `n`. -/
def resize (p : List BFE) (n : ℕ) : List BFE := p.take n ++ List.replicate (n - p.length) 0

end BPoly

/-! ## `RamTable::fill_trace`

Modelled from `ram_table.rs`, lines 62–157, as a total function into
`Except`: every panic site of the source (the three `assert!`s after
`xgcd`, the two `pop().unwrap()` sites, the `assert_eq!` on the row
count, the `usize` underflow `len - 1` in the row-pair loop bound, and
the two final `assert_eq!`s checking that the coefficient queues are
drained) becomes a distinct error value, in the source's evaluation
order.

Notes on the modelling:
* The write targets `ram_table[(_, usize::from(BezoutCoefficient0/1))]`
  name the *extension*-table enum variants (the base enum's variants are
  `BezoutCoefficientPolynomialCoefficient0/1`; both enums are
  glob-imported).  The numeric column mapping lives in `table_column.rs`,
  which is not among the provided sources; per the spec (§4.2 step 3,
  §3's base-row tuple) these writes record the coefficient pair in the
  Bézout-coefficient-polynomial-coefficient columns of the base row, and
  are modelled as writes to the `bcpc0`/`bcpc1` fields.
* `Vec::pop` removes the *last* element, so the resized coefficient
  vectors are reversed once and then consumed from the front.
* A freshly allocated table is zero-initialised; columns the source never
  writes (the helper columns of the final row) therefore stay `0`. -/

inductive FillTraceError where
  | gcdNotOne
  | bezoutCoefficient0Degree
  | bezoutCoefficient1Degree
  | popFailed
  | rowCountMismatch
  | loopBoundUnderflow
  | queuesNotDrained
deriving DecidableEq

/-- The row triples `(CLK, RAMP, RAMV)` in table order: the groups of
`pre_processed_ram_table`, flattened (contiguous RAMP regions, trace
order inside each region). -/
def layoutTriples (groups : List (BFE × List (BFE × BFE))) : List (BFE × BFE × BFE) :=
  groups.flatMap fun g => g.2.map fun cv => (cv.1, g.1, cv.2)

/-- The row-pair loop of `fill_trace` (lines 128–151): sets the helper
columns of the current row, draws a fresh Bézout-coefficient pair on a
RAMP change, and collects the clock-jump differences; `curr` is the
already-materialised current row, the remaining triples are the rows
after it. -/
def fillPairsAux :
    RamRow → List (BFE × BFE × BFE) → List BFE → List BFE → List BFE →
    Except FillTraceError (List RamRow × List BFE × List BFE × List BFE)
  | curr, [], q0, q1, jumps => .ok ([curr], jumps, q0, q1)
  | curr, (clk, ramp, ramv) :: rest, q0, q1, jumps =>
    let clkDiff := clk - curr.clk
    let rampDiff := ramp - curr.ramp
    let curr := { curr with
      clk_di := invOrZero (clkDiff - 1)
      iord := invOrZero rampDiff }
    if rampDiff ≠ 0 then
      match q0, q1 with
      | c0 :: q0', c1 :: q1' =>
        let next : RamRow :=
          { zeroRamRow with clk := clk, ramp := ramp, ramv := ramv, bcpc0 := c0, bcpc1 := c1 }
        let jumps' := if clkDiff.val > 1 then jumps ++ [clkDiff] else jumps
        (fillPairsAux next rest q0' q1' jumps').map fun res => (curr :: res.1, res.2)
      | _, _ => .error .popFailed
    else
      let next : RamRow :=
        { zeroRamRow with clk := clk, ramp := ramp, ramv := ramv,
                          bcpc0 := curr.bcpc0, bcpc1 := curr.bcpc1 }
      (fillPairsAux next rest q0 q1 jumps).map fun res => (curr :: res.1, res.2)

/-- `RamTable::fill_trace`: builds the RAM table from the AET and returns
the table together with the collected clock-jump differences. -/
def fillTrace (aet : AlgebraicExecutionTrace) :
    Except FillTraceError (List RamRow × List BFE) :=
  let groups := preProcessedRamTable aet.processor_matrix
  let numOfRamps := groups.length
  let polynomialWithRampsAsRoots :=
    groups.foldl (fun acc g => BPoly.mul acc [-g.1, 1]) [1]
  let formalDerivative := BPoly.derivative polynomialWithRampsAsRoots
  let gcdUV := BPoly.xgcd polynomialWithRampsAsRoots formalDerivative
  if ¬ BPoly.isOne gcdUV.1 then .error .gcdNotOne
  else if ¬ (BPoly.degree gcdUV.2.1 < (numOfRamps : ℤ)) then .error .bezoutCoefficient0Degree
  else if ¬ (BPoly.degree gcdUV.2.2 ≤ (numOfRamps : ℤ)) then .error .bezoutCoefficient1Degree
  else
    match BPoly.resize gcdUV.2.1 numOfRamps |>.reverse,
          BPoly.resize gcdUV.2.2 numOfRamps |>.reverse with
    | c0 :: q0, c1 :: q1 =>
      let triples := layoutTriples groups
      if triples.length ≠ aet.processor_matrix.length then .error .rowCountMismatch
      else
        match triples with
        | [] => .error .loopBoundUnderflow
        | (clk, ramp, ramv) :: rest =>
          let row0 : RamRow :=
            { zeroRamRow with clk := clk, ramp := ramp, ramv := ramv, bcpc0 := c0, bcpc1 := c1 }
          match fillPairsAux row0 rest q0 q1 [] with
          | .error e => .error e
          | .ok (rows, jumps, q0fin, q1fin) =>
            if q0fin = [] ∧ q1fin = [] then .ok (rows, jumps) else .error .queuesNotDrained
    | _, _ => .error .popFailed

/-! ## `RamTable::pad_trace`

Modelled from `ram_table.rs`, lines 160–245.  The in-place mutation of
the `ArrayViewMut2` becomes functional updates on the row list; the
`assert!`, the `expect` on the search for the maximal-clock row, the
`usize` subtractions and the `assert_eq!` on the section indices become
error values in source order. -/

/-- Overwrite the slice of `l` starting at `start` with `xs`
(`move_into` on an ndarray slice; all uses are in range). -/
def writeSlice (l : List RamRow) (start : ℕ) (xs : List RamRow) : List RamRow :=
  l.take start ++ xs ++ l.drop (start + xs.length)

/-- Update the row at index `i` (in-place single-row assignment). -/
def modifyRow (l : List RamRow) (i : ℕ) (f : RamRow → RamRow) : List RamRow :=
  writeSlice l i (((l.drop i).take 1).map f)

inductive PadTraceError where
  | emptyProcessorTable
  | paddingUnderflow
  | noMaxClkRow
  | moveUnderflow
  | sectionMismatch
deriving DecidableEq

/-- `RamTable::pad_trace`: pads the table (whose length is the target
padded height) to clock-continuity, moving the rows after the
maximal-clock row to the tail. -/
def padTrace (ramTable : List RamRow) (processorTableLen : ℕ) :
    Except PadTraceError (List RamRow) :=
  if processorTableLen = 0 then .error .emptyProcessorTable
  else
    let paddedHeight := ramTable.length
    if paddedHeight < processorTableLen then .error .paddingUnderflow
    else
      let numPaddingRows := paddedHeight - processorTableLen
      let maxClkBeforePadding := processorTableLen - 1
      match ramTable.findIdx? (fun row => row.clk.val = maxClkBeforePadding) with
      | none => .error .noMaxClkRow
      | some maxClkBeforePaddingRowIdx =>
        let rowsToMoveSourceSectionStart := maxClkBeforePaddingRowIdx + 1
        let rowsToMoveSourceSectionEnd := processorTableLen
        if rowsToMoveSourceSectionEnd < rowsToMoveSourceSectionStart then .error .moveUnderflow
        else
          let numRowsToMove := rowsToMoveSourceSectionEnd - rowsToMoveSourceSectionStart
          let rowsToMoveDestSectionStart := rowsToMoveSourceSectionStart + numPaddingRows
          let rowsToMoveDestSectionEnd := rowsToMoveDestSectionStart + numRowsToMove
          let paddingSectionStart := rowsToMoveSourceSectionStart
          if paddedHeight ≠ rowsToMoveDestSectionEnd then .error .sectionMismatch
          else
            let rowsToMove :=
              (ramTable.drop rowsToMoveSourceSectionStart).take numRowsToMove
            let t1 := writeSlice ramTable rowsToMoveDestSectionStart rowsToMove
            let templateBase := t1.getD maxClkBeforePaddingRowIdx zeroRamRow
            let rampDifferenceInverse := templateBase.iord
            let template : RamRow := { templateBase with iord := 0, clk_di := 0 }
            let t2 := writeSlice t1 paddingSectionStart
              ((List.range numPaddingRows).map fun i =>
                { template with clk := ((processorTableLen + i : ℕ) : BFE) })
            let t3 := modifyRow t2 maxClkBeforePaddingRowIdx
              (fun r => { r with iord := 0, clk_di := 0 })
            if 0 < numRowsToMove ∧ 0 < rowsToMoveDestSectionStart then
              let maxClkAfterPadding := paddedHeight - 1
              let clkDiffMinusOneAtBoundary :=
                (t3.getD rowsToMoveDestSectionStart zeroRamRow).clk
                  - ((maxClkAfterPadding : ℕ) : BFE) - 1
              let lastRowInPaddingSectionIdx := rowsToMoveDestSectionStart - 1
              .ok (modifyRow t3 lastRowInPaddingSectionIdx
                (fun r => { r with iord := rampDifferenceInverse,
                                   clk_di := invOrZero clkDiffMinusOneAtBoundary }))
            else .ok t3

/-! ## Challenges and `RamTable::extend` -/

/-- `RamTableChallenges` (ram_table.rs, lines 566–581): the six extension
challenges. -/
structure RamTableChallenges where
  bezout_relation_indeterminate : XF
  processor_perm_indeterminate : XF
  clk_weight : XF
  ramv_weight : XF
  ramp_weight : XF
  all_clock_jump_differences_multi_perm_indeterminate : XF
deriving DecidableEq

/-- `RamTableChallengeId` (ram_table.rs, lines 550–558). -/
inductive RamTableChallengeId where
  | BezoutRelationIndeterminate
  | ProcessorPermIndeterminate
  | ClkWeight
  | RamvWeight
  | RampWeight
  | AllClockJumpDifferencesMultiPermIndeterminate
deriving DecidableEq

/-- `TableChallenges::get_challenge` for the RAM table (lines 583–599). -/
def getChallenge (c : RamTableChallenges) : RamTableChallengeId → XF
  | .BezoutRelationIndeterminate => c.bezout_relation_indeterminate
  | .ProcessorPermIndeterminate => c.processor_perm_indeterminate
  | .ClkWeight => c.clk_weight
  | .RamvWeight => c.ramv_weight
  | .RampWeight => c.ramp_weight
  | .AllClockJumpDifferencesMultiPermIndeterminate =>
    c.all_clock_jump_differences_multi_perm_indeterminate

/-- `PermArg::default_initial()`.  Modelled from the spec: the
`cross_table_arguments` module is not among the provided sources; the
spec (§4.4) has both permutation-argument running products "initialized
to protocol default", and the initial constraint
`rppa - rppa_challenge = 0` forces that default to be `1`. -/
def permArgDefaultInitial : XF := 1

/-- `ExtRamTable` (an empty struct in the source). -/
structure ExtRamTable where
deriving DecidableEq

inductive ExtendError where
  | indexOutOfBounds
deriving DecidableEq

/-- `RamTable::extend` exactly as written (ram_table.rs, lines 247–323):
it does not receive a table; it iterates over the hard-coded
`fake_data = vec![vec![BFieldElement::zero()]]` — a single raw row
holding a single element — and discards the extension matrix it builds,
returning the empty struct `ExtRamTable {}`.  Its first read,
`fake_data.first().unwrap()[usize::from(RAMP)]`, indexes the one-element
fake row at the `RAMP` column ordinal; the column ordinals live in the
missing `table_column.rs` and are modelled from the spec's base-row tuple
order (§3), `CLK = 0, RAMP = 1, …` — and with *any* injective ordinal
assignment of the seven base columns, some column read of the loop body
indexes the one-element row out of bounds.  The out-of-bounds access is
modelled as an error. -/
def extend (_challenges : RamTableChallenges) : Except ExtendError ExtRamTable :=
  let fakeData : List (List BFE) := [[0]]
  match (fakeData.headD [])[1]? with
  | none => .error .indexOutOfBounds
  | some _rampFirstRow => .ok {}

/-! ## The extension-column recurrences

The body of `extend`'s per-row loop (lines 262–319), applied — as the
spec's Extension Builder (§4.4) prescribes — to an actual base table
rather than to the `fake_data` stub.  The running state is initialised
from the first row exactly as in lines 250–260. -/

/-- The running accumulators of the Extension Builder. -/
structure ExtState where
  running_product_of_ramp : XF
  formal_derivative : XF
  bezout_coefficient_0 : XF
  bezout_coefficient_1 : XF
  all_clock_jump_differences_running_product : XF
  running_product_for_perm_arg : XF
deriving DecidableEq

/-- One iteration of `extend`'s loop: update the accumulators for `row`
given the previous row (if any) and emit the extension row. -/
def extendStep (c : RamTableChallenges) (prev : Option RamRow) (row : RamRow)
    (s : ExtState) : ExtState × ExtRamRow :=
  let clk := row.clk.lift
  let ramp := row.ramp.lift
  let ramv := row.ramv.lift
  let s :=
    match prev with
    | none => s
    | some prow =>
      if prow.ramp ≠ row.ramp then
        let bcpc0 := row.bcpc0.lift
        let bcpc1 := row.bcpc1.lift
        let bezoutChallenge := c.bezout_relation_indeterminate
        { s with
          formal_derivative :=
            (bezoutChallenge - ramp) * s.formal_derivative + s.running_product_of_ramp
          running_product_of_ramp := s.running_product_of_ramp * (bezoutChallenge - ramp)
          bezout_coefficient_0 := s.bezout_coefficient_0 * bezoutChallenge + bcpc0
          bezout_coefficient_1 := s.bezout_coefficient_1 * bezoutChallenge + bcpc1 }
      else
        let clockJumpDifference := (row.clk - prow.clk).lift
        if clockJumpDifference ≠ (1 : XF) then
          { s with all_clock_jump_differences_running_product :=
              s.all_clock_jump_differences_running_product *
                (c.all_clock_jump_differences_multi_perm_indeterminate - clockJumpDifference) }
        else s
  let compressedRow := clk * c.clk_weight + ramp * c.ramp_weight + ramv * c.ramv_weight
  let s := { s with running_product_for_perm_arg :=
      s.running_product_for_perm_arg * (c.processor_perm_indeterminate - compressedRow) }
  (s, { runningProductOfRamp := s.running_product_of_ramp
        formalDerivative := s.formal_derivative
        bezoutCoefficient0 := s.bezout_coefficient_0
        bezoutCoefficient1 := s.bezout_coefficient_1
        runningProductPermArg := s.running_product_for_perm_arg
        allClockJumpDifferencesPermArg := s.all_clock_jump_differences_running_product })

/-- The loop of `extend` over a row list, threading the previous row. -/
def extendColumnsAux (c : RamTableChallenges) :
    Option RamRow → ExtState → List RamRow → List ExtRamRow
  | _, _, [] => []
  | prev, s, row :: rest =>
    let se := extendStep c prev row s
    se.2 :: extendColumnsAux c (some row) se.1 rest

/-- The extension columns of a base table: the recurrences of `extend`'s
loop body run over the given rows, with the accumulators initialised from
the first row (lines 250–260). -/
def extendColumns (c : RamTableChallenges) (rows : List RamRow) : List ExtRamRow :=
  match rows with
  | [] => []
  | first :: _ =>
    let s0 : ExtState :=
      { running_product_of_ramp := c.bezout_relation_indeterminate - first.ramp.lift
        formal_derivative := 1
        bezout_coefficient_0 := 0
        bezout_coefficient_1 := first.bcpc1.lift
        all_clock_jump_differences_running_product := permArgDefaultInitial
        running_product_for_perm_arg := permArgDefaultInitial }
    extendColumnsAux c none s0 rows

/-! ## The constraint circuits

`ConstraintCircuit` (from `constraint_circuit.rs`, not among the provided
sources) is a shared symbolic expression graph over constants,
challenges and row inputs, built with `+`, `-`, `*`; the builder's
sharing (`Rc`, `consume`) does not affect the denoted polynomial, so the
circuits are modelled as expression trees, and the numeric
`master_table_index` input references are modelled by the column
enumerations themselves. -/

/-- `RamBaseTableColumn` (from the missing `table_column.rs`; the
variants are the ones `ram_table.rs` names). -/
inductive RamBaseColumn where
  | CLK
  | RAMP
  | RAMV
  | InverseOfRampDifference
  | BezoutCoefficientPolynomialCoefficient0
  | BezoutCoefficientPolynomialCoefficient1
  | InverseOfClkDiffMinusOne
deriving DecidableEq

/-- `RamExtTableColumn`. -/
inductive RamExtColumn where
  | RunningProductOfRAMP
  | FormalDerivative
  | BezoutCoefficient0
  | BezoutCoefficient1
  | RunningProductPermArg
  | AllClockJumpDifferencesPermArg
deriving DecidableEq

/-- `SingleRowIndicator`. -/
inductive SingleRowIndicator where
  | BaseRow (c : RamBaseColumn)
  | ExtRow (c : RamExtColumn)
deriving DecidableEq

/-- `DualRowIndicator`. -/
inductive DualRowIndicator where
  | CurrentBaseRow (c : RamBaseColumn)
  | CurrentExtRow (c : RamExtColumn)
  | NextBaseRow (c : RamBaseColumn)
  | NextExtRow (c : RamExtColumn)
deriving DecidableEq

/-- `ConstraintCircuit`: symbolic constraint expressions. -/
inductive ConstraintCircuit (I : Type) where
  | bConstant (b : BFE)
  | challenge (id : RamTableChallengeId)
  | input (i : I)
  | add (l r : ConstraintCircuit I)
  | sub (l r : ConstraintCircuit I)
  | mul (l r : ConstraintCircuit I)
deriving DecidableEq

instance {I} : Add (ConstraintCircuit I) := ⟨ConstraintCircuit.add⟩
instance {I} : Sub (ConstraintCircuit I) := ⟨ConstraintCircuit.sub⟩
instance {I} : Mul (ConstraintCircuit I) := ⟨ConstraintCircuit.mul⟩

/-- Base-row column lookup. -/
def RamRow.col (r : RamRow) : RamBaseColumn → BFE
  | .CLK => r.clk
  | .RAMP => r.ramp
  | .RAMV => r.ramv
  | .InverseOfRampDifference => r.iord
  | .BezoutCoefficientPolynomialCoefficient0 => r.bcpc0
  | .BezoutCoefficientPolynomialCoefficient1 => r.bcpc1
  | .InverseOfClkDiffMinusOne => r.clk_di

/-- Extension-row column lookup. -/
def ExtRamRow.col (r : ExtRamRow) : RamExtColumn → XF
  | .RunningProductOfRAMP => r.runningProductOfRamp
  | .FormalDerivative => r.formalDerivative
  | .BezoutCoefficient0 => r.bezoutCoefficient0
  | .BezoutCoefficient1 => r.bezoutCoefficient1
  | .RunningProductPermArg => r.runningProductPermArg
  | .AllClockJumpDifferencesPermArg => r.allClockJumpDifferencesPermArg

/-- Evaluate a single-row circuit on a (base, extension) row pair; base
values are lifted into the extension field. -/
def evalSingle (c : ConstraintCircuit SingleRowIndicator) (ch : RamTableChallenges)
    (b : RamRow) (e : ExtRamRow) : XF :=
  match c with
  | .bConstant v => v.lift
  | .challenge id => getChallenge ch id
  | .input (.BaseRow col) => (b.col col).lift
  | .input (.ExtRow col) => e.col col
  | .add l r => evalSingle l ch b e + evalSingle r ch b e
  | .sub l r => evalSingle l ch b e - evalSingle r ch b e
  | .mul l r => evalSingle l ch b e * evalSingle r ch b e

/-- Evaluate a dual-row circuit on adjacent row pairs. -/
def evalDual (c : ConstraintCircuit DualRowIndicator) (ch : RamTableChallenges)
    (cb : RamRow) (ce : ExtRamRow) (nb : RamRow) (ne : ExtRamRow) : XF :=
  match c with
  | .bConstant v => v.lift
  | .challenge id => getChallenge ch id
  | .input (.CurrentBaseRow col) => (cb.col col).lift
  | .input (.CurrentExtRow col) => ce.col col
  | .input (.NextBaseRow col) => (nb.col col).lift
  | .input (.NextExtRow col) => ne.col col
  | .add l r => evalDual l ch cb ce nb ne + evalDual r ch cb ce nb ne
  | .sub l r => evalDual l ch cb ce nb ne - evalDual r ch cb ce nb ne
  | .mul l r => evalDual l ch cb ce nb ne * evalDual r ch cb ce nb ne

namespace ExtRamTableCircuits

open ConstraintCircuit RamTableChallengeId

/-- `ExtRamTable::ext_initial_constraints_as_circuits`
(ram_table.rs, lines 327–381). -/
def ext_initial_constraints_as_circuits : List (ConstraintCircuit SingleRowIndicator) :=
  let one : ConstraintCircuit SingleRowIndicator := bConstant 1
  let bezout_challenge : ConstraintCircuit SingleRowIndicator :=
    challenge BezoutRelationIndeterminate
  let rppa_challenge : ConstraintCircuit SingleRowIndicator :=
    challenge ProcessorPermIndeterminate
  let clk : ConstraintCircuit SingleRowIndicator := input (.BaseRow .CLK)
  let ramp : ConstraintCircuit SingleRowIndicator := input (.BaseRow .RAMP)
  let ramv : ConstraintCircuit SingleRowIndicator := input (.BaseRow .RAMV)
  let bcpc0 : ConstraintCircuit SingleRowIndicator :=
    input (.BaseRow .BezoutCoefficientPolynomialCoefficient0)
  let bcpc1 : ConstraintCircuit SingleRowIndicator :=
    input (.BaseRow .BezoutCoefficientPolynomialCoefficient1)
  let rp : ConstraintCircuit SingleRowIndicator := input (.ExtRow .RunningProductOfRAMP)
  let fd : ConstraintCircuit SingleRowIndicator := input (.ExtRow .FormalDerivative)
  let bc0 : ConstraintCircuit SingleRowIndicator := input (.ExtRow .BezoutCoefficient0)
  let bc1 : ConstraintCircuit SingleRowIndicator := input (.ExtRow .BezoutCoefficient1)
  let rppa : ConstraintCircuit SingleRowIndicator := input (.ExtRow .RunningProductPermArg)
  let clk_is_0 := clk
  let ramp_is_0 := ramp
  let ramv_is_0 := ramv
  let bezout_coefficient_polynomial_coefficient_0_is_0 := bcpc0
  let bezout_coefficient_0_is_0 := bc0
  let bezout_coefficient_1_is_bezout_coefficient_polynomial_coefficient_1 := bc1 - bcpc1
  let formal_derivative_is_1 := fd - one
  let running_product_polynomial_is_initialized_correctly := rp - bezout_challenge
  let running_product_permutation_argument_is_initialized_correctly := rppa - rppa_challenge
  [clk_is_0, ramp_is_0, ramv_is_0,
   bezout_coefficient_polynomial_coefficient_0_is_0,
   bezout_coefficient_0_is_0,
   bezout_coefficient_1_is_bezout_coefficient_polynomial_coefficient_1,
   formal_derivative_is_1,
   running_product_polynomial_is_initialized_correctly,
   running_product_permutation_argument_is_initialized_correctly]

/-- `ExtRamTable::ext_consistency_constraints_as_circuits`
(lines 383–391): explicitly empty. -/
def ext_consistency_constraints_as_circuits : List (ConstraintCircuit SingleRowIndicator) :=
  []

/-- `ExtRamTable::ext_transition_constraints_as_circuits`
(lines 393–528). -/
def ext_transition_constraints_as_circuits : List (ConstraintCircuit DualRowIndicator) :=
  let one : ConstraintCircuit DualRowIndicator := bConstant 1
  let bezout_challenge : ConstraintCircuit DualRowIndicator :=
    challenge BezoutRelationIndeterminate
  let cjd_challenge : ConstraintCircuit DualRowIndicator :=
    challenge AllClockJumpDifferencesMultiPermIndeterminate
  let rppa_challenge : ConstraintCircuit DualRowIndicator :=
    challenge ProcessorPermIndeterminate
  let clk_weight : ConstraintCircuit DualRowIndicator := challenge ClkWeight
  let ramp_weight : ConstraintCircuit DualRowIndicator := challenge RampWeight
  let ramv_weight : ConstraintCircuit DualRowIndicator := challenge RamvWeight
  let clk : ConstraintCircuit DualRowIndicator := input (.CurrentBaseRow .CLK)
  let ramp : ConstraintCircuit DualRowIndicator := input (.CurrentBaseRow .RAMP)
  let ramv : ConstraintCircuit DualRowIndicator := input (.CurrentBaseRow .RAMV)
  let iord : ConstraintCircuit DualRowIndicator :=
    input (.CurrentBaseRow .InverseOfRampDifference)
  let bcpc0 : ConstraintCircuit DualRowIndicator :=
    input (.CurrentBaseRow .BezoutCoefficientPolynomialCoefficient0)
  let bcpc1 : ConstraintCircuit DualRowIndicator :=
    input (.CurrentBaseRow .BezoutCoefficientPolynomialCoefficient1)
  let clk_di : ConstraintCircuit DualRowIndicator :=
    input (.CurrentBaseRow .InverseOfClkDiffMinusOne)
  let rp : ConstraintCircuit DualRowIndicator := input (.CurrentExtRow .RunningProductOfRAMP)
  let fd : ConstraintCircuit DualRowIndicator := input (.CurrentExtRow .FormalDerivative)
  let bc0 : ConstraintCircuit DualRowIndicator := input (.CurrentExtRow .BezoutCoefficient0)
  let bc1 : ConstraintCircuit DualRowIndicator := input (.CurrentExtRow .BezoutCoefficient1)
  let rpcjd : ConstraintCircuit DualRowIndicator :=
    input (.CurrentExtRow .AllClockJumpDifferencesPermArg)
  let rppa : ConstraintCircuit DualRowIndicator :=
    input (.CurrentExtRow .RunningProductPermArg)
  let clk_next : ConstraintCircuit DualRowIndicator := input (.NextBaseRow .CLK)
  let ramp_next : ConstraintCircuit DualRowIndicator := input (.NextBaseRow .RAMP)
  let ramv_next : ConstraintCircuit DualRowIndicator := input (.NextBaseRow .RAMV)
  let bcpc0_next : ConstraintCircuit DualRowIndicator :=
    input (.NextBaseRow .BezoutCoefficientPolynomialCoefficient0)
  let bcpc1_next : ConstraintCircuit DualRowIndicator :=
    input (.NextBaseRow .BezoutCoefficientPolynomialCoefficient1)
  let rp_next : ConstraintCircuit DualRowIndicator := input (.NextExtRow .RunningProductOfRAMP)
  let fd_next : ConstraintCircuit DualRowIndicator := input (.NextExtRow .FormalDerivative)
  let bc0_next : ConstraintCircuit DualRowIndicator := input (.NextExtRow .BezoutCoefficient0)
  let bc1_next : ConstraintCircuit DualRowIndicator := input (.NextExtRow .BezoutCoefficient1)
  let rpcjd_next : ConstraintCircuit DualRowIndicator :=
    input (.NextExtRow .AllClockJumpDifferencesPermArg)
  let rppa_next : ConstraintCircuit DualRowIndicator :=
    input (.NextExtRow .RunningProductPermArg)
  let ramp_diff := ramp_next - ramp
  let ramp_changes := ramp_diff * iord
  let iord_is_0_or_iord_is_inverse_of_ramp_diff := iord * (ramp_changes - one)
  let ramp_diff_is_0_or_iord_is_inverse_of_ramp_diff := ramp_diff * (ramp_changes - one)
  let ramp_does_not_change_or_ramv_becomes_0 := ramp_diff * ramv_next
  let ramp_does_not_change_or_ramv_does_not_change_or_clk_increases_by_1 :=
    (ramp_changes - one) * (ramv_next - ramv) * (clk_next - (clk + one))
  let bcbp0_only_changes_if_ramp_changes := (one - ramp_changes) * (bcpc0_next - bcpc0)
  let bcbp1_only_changes_if_ramp_changes := (one - ramp_changes) * (bcpc1_next - bcpc1)
  let running_product_ramp_updates_correctly :=
    ramp_diff * (rp_next - rp * (bezout_challenge - ramp_next))
      + (one - ramp_changes) * (rp_next - rp)
  let formal_derivative_updates_correctly :=
    ramp_diff * (fd_next - rp - (bezout_challenge - ramp_next) * fd)
      + (one - ramp_changes) * (fd_next - fd)
  let bezout_coefficient_0_is_constructed_correctly :=
    ramp_diff * (bc0_next - bezout_challenge * bc0 - bcpc0_next)
      + (one - ramp_changes) * (bc0_next - bc0)
  let bezout_coefficient_1_is_constructed_correctly :=
    ramp_diff * (bc1_next - bezout_challenge * bc1 - bcpc1_next)
      + (one - ramp_changes) * (bc1_next - bc1)
  let clk_di_is_inverse_of_clkd := clk_di * (clk_next - clk - one)
  let clk_di_is_zero_or_inverse_of_clkd := clk_di * clk_di_is_inverse_of_clkd
  let clkd_is_zero_or_inverse_of_clk_di := (clk_next - clk - one) * clk_di_is_inverse_of_clkd
  let rpcjd_updates_correctly :=
    (clk_next - clk - one) * (rpcjd_next - rpcjd)
      + (one - (ramp_next - ramp) * iord) * (rpcjd_next - rpcjd)
      + (one - (clk_next - clk - one) * clk_di) * ramp
          * (rpcjd_next - rpcjd * (cjd_challenge - ramp))
  let compressed_row_for_permutation_argument :=
    clk_next * clk_weight + ramp_next * ramp_weight + ramv_next * ramv_weight
  let rppa_updates_correctly :=
    rppa_next - rppa * (rppa_challenge - compressed_row_for_permutation_argument)
  [iord_is_0_or_iord_is_inverse_of_ramp_diff,
   ramp_diff_is_0_or_iord_is_inverse_of_ramp_diff,
   ramp_does_not_change_or_ramv_becomes_0,
   ramp_does_not_change_or_ramv_does_not_change_or_clk_increases_by_1,
   bcbp0_only_changes_if_ramp_changes,
   bcbp1_only_changes_if_ramp_changes,
   running_product_ramp_updates_correctly,
   formal_derivative_updates_correctly,
   bezout_coefficient_0_is_constructed_correctly,
   bezout_coefficient_1_is_constructed_correctly,
   clk_di_is_zero_or_inverse_of_clkd,
   clkd_is_zero_or_inverse_of_clk_di,
   rpcjd_updates_correctly,
   rppa_updates_correctly]

/-- `ExtRamTable::ext_terminal_constraints_as_circuits`
(lines 530–547). -/
def ext_terminal_constraints_as_circuits : List (ConstraintCircuit SingleRowIndicator) :=
  let one : ConstraintCircuit SingleRowIndicator := bConstant 1
  let rp : ConstraintCircuit SingleRowIndicator := input (.ExtRow .RunningProductOfRAMP)
  let fd : ConstraintCircuit SingleRowIndicator := input (.ExtRow .FormalDerivative)
  let bc0 : ConstraintCircuit SingleRowIndicator := input (.ExtRow .BezoutCoefficient0)
  let bc1 : ConstraintCircuit SingleRowIndicator := input (.ExtRow .BezoutCoefficient1)
  let bezout_relation_holds := bc0 * rp + bc1 * fd - one
  [bezout_relation_holds]

end ExtRamTableCircuits

/-! ## `Program::simulate` (vm.rs, lines 125–158)

The single-step transition (`VMState::step_mut`, in the missing
`state.rs`) is an opaque external collaborator per the spec (§4.1, §6):
together with the completion predicate and the register-snapshot
projection it is a parameter of the embedding.  `step_mut` mutates the
state and consumes from the two input streams; functionally it returns
the new state and streams plus the optional side output, or an error.
The unbounded `while` loop is fuelled; `simulate` returns `none` exactly
when the loop has not terminated within the given fuel, which leaves the
terminating behaviour — the subject of the claims — faithfully
represented. -/

/-- `VMOutput` (state.rs, opaque): a hash-coprocessor trace fragment or
an output symbol. -/
inductive VMOutput where
  | xlixTrace (t : List (List BFE))
  | writeOutputSymbol (w : BFE)

/-- The opaque single-step semantics of the VM. -/
structure StepSemantics (S E : Type) where
  isComplete : S → Bool
  stepMut : S → List BFE → List BFE → Except E (S × List BFE × List BFE × Option VMOutput)
  toProcessorRow : S → ProcessorRow

/-- The `while !state.is_complete()` loop of `simulate`, with the AET and
stdout accumulators threaded. -/
def simulateLoop {S E : Type} (sem : StepSemantics S E) :
    ℕ → S → List BFE → List BFE → AlgebraicExecutionTrace → List BFE →
    Option (AlgebraicExecutionTrace × List BFE × Option E)
  | 0, _, _, _, _, _ => none
  | fuel + 1, st, stdin, secretIn, aet, stdout =>
    if sem.isComplete st then some (aet, stdout, none)
    else
      match sem.stepMut st stdin secretIn with
      | .error e => some (aet, stdout, some e)
      | .ok (st', stdin', secretIn', vmOutput) =>
        let stdout' :=
          match vmOutput with
          | some (.writeOutputSymbol w) => stdout ++ [w]
          | _ => stdout
        let aet' :=
          match vmOutput with
          | some (.xlixTrace t) => { aet with hash_matrix := aet.hash_matrix ++ t }
          | _ => aet
        let aet'' := { aet' with
          processor_matrix := aet'.processor_matrix ++ [sem.toProcessorRow st'] }
        simulateLoop sem fuel st' stdin' secretIn' aet'' stdout'

/-- `Program::simulate`: records the initial state's snapshot, then runs
the step loop. -/
def simulate {S E : Type} (sem : StepSemantics S E) (initialState : S)
    (stdin secretIn : List BFE) (fuel : ℕ) :
    Option (AlgebraicExecutionTrace × List BFE × Option E) :=
  simulateLoop sem fuel initialState stdin secretIn
    { processor_matrix := [sem.toProcessorRow initialState], hash_matrix := [] } []

/-- The canonical machine configuration after `k` successful,
non-completing steps of the pure step iteration (independent of
`simulate`): `none` if the machine completed or a step failed earlier. -/
def runConfig {S E : Type} (sem : StepSemantics S E) (s0 : S)
    (stdin secretIn : List BFE) : ℕ → Option (S × List BFE × List BFE)
  | 0 => some (s0, stdin, secretIn)
  | k + 1 =>
    match runConfig sem s0 stdin secretIn k with
    | none => none
    | some (st, i, sec) =>
      if sem.isComplete st then none
      else
        match sem.stepMut st i sec with
        | .error _ => none
        | .ok (st', i', sec', _) => some (st', i', sec')

/-- The register snapshots the Execution Driver has recorded once the
configuration after `k` steps is reached: the initial state's snapshot
followed by the snapshot of the state after each successful step. -/
def canonicalSnapshots {S E : Type} (sem : StepSemantics S E) (s0 : S)
    (stdin secretIn : List BFE) (k : ℕ) : List ProcessorRow :=
  (List.range (k + 1)).filterMap fun i =>
    (runConfig sem s0 stdin secretIn i).map fun cfg => sem.toProcessorRow cfg.1

/-! ## Derived tables and concrete instances -/

deriving instance DecidableEq for Except

/-- The all-zero extension row (used as an out-of-range default). -/
def zeroExtRamRow : ExtRamRow := ⟨0, 0, 0, 0, 0, 0⟩

/-- The claims' "genuinely derived (base, extension) table pair": the
table built by `fill_trace` inside a zero-initialised table of the target
padded height, padded by `pad_trace`, with the extension columns computed
by the extension-builder recurrences. -/
def deriveTables (aet : AlgebraicExecutionTrace) (paddedHeight : ℕ)
    (ch : RamTableChallenges) : Option (List RamRow × List ExtRamRow) :=
  match fillTrace aet with
  | .error _ => none
  | .ok (rows, _) =>
    let table := rows ++ List.replicate (paddedHeight - rows.length) zeroRamRow
    match padTrace table aet.processor_matrix.length with
    | .error _ => none
    | .ok padded => some (padded, extendColumns ch padded)

/-- An AET with two same-address accesses at clocks 4 and 7 — the
spec's clock-jump scenario (claim C1). -/
def c1Aet : AlgebraicExecutionTrace := ⟨[⟨4, 9, 0⟩, ⟨7, 9, 0⟩], []⟩

/-- **C1.** For the scenario of two same-address rows with clocks 4 and 7
(clock delta 3), `fill_trace` succeeds but returns the *empty* list of
clock-jump differences: the push condition at line 148 of ram_table.rs
reads `ramp_diff != 0 && clk_diff > 1`, so a jump is recorded only when
the address *changes* — the claim (and the spec) require it to be
recorded exactly when the address does *not* change, which would give
`[3]` here. -/
theorem c1_fillTrace_records_no_jump_for_same_address_delta3 :
    (fillTrace c1Aet).toOption.map (·.2) = some [] := by decide

/-- **C2.** `extend` is a stub: it takes no table, iterates over the
hard-coded `fake_data = vec![vec![0]]`, and its very first read — column
`RAMP` of the single one-element fake row — is out of bounds, for every
choice of the six challenges.  It never performs a pass over any padded
base table and outputs no extension rows. -/
theorem c2_extend_ignores_table_and_aborts :
    ∀ ch : RamTableChallenges, extend ch = .error .indexOutOfBounds := fun _ => rfl

/-- The AET of the C3 failing input: accesses `(0,0,0), (1,1,0), (2,1,0)`. -/
def c3Aet : AlgebraicExecutionTrace := ⟨[⟨0, 0, 0⟩, ⟨1, 1, 0⟩, ⟨2, 1, 0⟩], []⟩

/-- Concrete challenges for the C3 failing input (lifted base-field
scalars `β = 2, α = 3, w_clk = 4, w_ramv = 5, w_ramp = 6, γ = 5`). -/
def c3Challenges : RamTableChallenges :=
  ⟨⟨2, 0, 0⟩, ⟨3, 0, 0⟩, ⟨4, 0, 0⟩, ⟨5, 0, 0⟩, ⟨6, 0, 0⟩, ⟨5, 0, 0⟩⟩

/-- The genuinely derived (base, extension) pair for the C3 failing
input, padded to height 4. -/
def c3Derived : List RamRow × List ExtRamRow :=
  (deriveTables c3Aet 4 c3Challenges).getD ([], [])

/-- **C3.** The round-trip property fails on the code: on the genuinely
derived pair for the AET `(0,0,0), (1,1,0), (2,1,0)` (padded to height 4,
challenges `c3Challenges`), the transition-constraint set does *not*
evaluate to zero on the adjacent row pair (1, 2) — a same-address,
clock+1 step with nonzero address.  The clock-jump constraint
(`rpcjd_updates_correctly`, lines 497–503) demands
`rpcjd' = rpcjd·(γ - ramp)` there, while the honest extension columns
leave `rpcjd` unchanged (and the extension recurrence folds
`γ - clock_jump_difference`, not `γ - ramp`, when it does fold). -/
theorem c3_transition_constraints_fail_on_derived_table :
    (deriveTables c3Aet 4 c3Challenges).isSome ∧
    ¬ (∀ c ∈ ExtRamTableCircuits.ext_transition_constraints_as_circuits,
      evalDual c c3Challenges (c3Derived.1.getD 1 zeroRamRow) (c3Derived.2.getD 1 zeroExtRamRow)
        (c3Derived.1.getD 2 zeroRamRow) (c3Derived.2.getD 2 zeroExtRamRow) = 0) := by decide

/-- **C4.** The terminal constraint set consists of exactly one relation,
and on every (base, extension) row and every challenge assignment it
evaluates to `bc0·rp + bc1·fd - 1`: mapping the evaluator over the
returned list yields precisely that one value. -/
theorem c4_terminal_constraint_is_single_bezout_identity :
    ∀ (ch : RamTableChallenges) (b : RamRow) (e : ExtRamRow),
      (ExtRamTableCircuits.ext_terminal_constraints_as_circuits).map
        (fun c => evalSingle c ch b e) =
      [e.bezoutCoefficient0 * e.runningProductOfRamp
        + e.bezoutCoefficient1 * e.formalDerivative - 1] := fun _ _ _ => rfl

/-- An AET whose RAM table has a row after the maximal-clock row
(address 5 is accessed at clocks 0 and 2, address 7 at clock 1, so the
table order is `clk 0, clk 2, clk 1`). -/
def c7Aet : AlgebraicExecutionTrace := ⟨[⟨0, 5, 0⟩, ⟨1, 7, 0⟩, ⟨2, 5, 0⟩], []⟩

/-- The C7 table: built by `fill_trace` from `c7Aet`, zero-padded to the
target height 4. -/
def c7Table : List RamRow := ((fillTrace c7Aet).toOption.getD ([], [])).1 ++ [zeroRamRow]

/-- The C7 table padded once. -/
def c7Padded : List RamRow := (padTrace c7Table 3).toOption.getD []

/-- **C7, counterexample.** Padding twice with the same natural and
target lengths is *not* a no-op on the second call: on `c7Table` (natural
length 3, target 4, one row after the maximal-clock row), the first call
succeeds, and the second call moves the padding row it finds in the
source section to the tail — overwriting the row that was moved there by
the first call — so its result differs from its input. -/
theorem c7_double_padding_not_noop_counterexample :
    (padTrace c7Table 3).toOption = some c7Padded ∧
    padTrace c7Padded 3 ≠ .ok c7Padded := by decide

/-! ## C6: contiguity of RAMP blocks -/

/-- "The rows sharing a value form exactly one contiguous block": for
every value `v` the list splits as `pre ++ mid ++ post` where `mid` is
constantly `v` and `v` occurs in neither `pre` nor `post`. -/
def OneContiguousBlock (l : List BFE) : Prop :=
  ∀ v : BFE, ∃ pre mid post : List BFE,
    l = pre ++ mid ++ post ∧ (∀ x ∈ mid, x = v) ∧ v ∉ pre ∧ v ∉ post

theorem fillPairsAux_rows_map :
    ∀ (triples : List (BFE × BFE × BFE)) (curr : RamRow) (q0 q1 jumps : List BFE)
      (rows : List RamRow) (rest : List BFE × List BFE × List BFE),
      fillPairsAux curr triples q0 q1 jumps = .ok (rows, rest) →
      rows.map RamRow.ramp = curr.ramp :: triples.map (fun t => t.2.1) := by
  intro triples
  induction triples with
  | nil =>
    intro curr q0 q1 jumps rows rest h
    unfold fillPairsAux at h
    injection h with h
    injection h with h1 h2
    subst h1
    simp
  | cons t rest' ih =>
    intro curr q0 q1 jumps rows rest h
    obtain ⟨clk, ramp, ramv⟩ := t
    unfold fillPairsAux at h
    simp only at h
    split at h
    · -- ramp changed: pops
      cases q0 with
      | nil => simp at h
      | cons c0 q0' =>
        cases q1 with
        | nil => simp at h
        | cons c1 q1' =>
          simp only [Except.map] at h
          split at h
          · cases h
          next res hres =>
            injection h with h
            injection h with hrows hrest
            subst hrows
            simp only [List.map_cons]
            rw [ih _ _ _ _ _ _ hres]
    · -- ramp unchanged
      simp only [Except.map] at h
      split at h
      · cases h
      next res hres =>
        injection h with h
        injection h with hrows hrest
        subst hrows
        simp only [List.map_cons]
        rw [ih _ _ _ _ _ _ hres]

theorem layoutTriples_map_ramp (groups : List (BFE × List (BFE × BFE))) :
    (layoutTriples groups).map (fun t => t.2.1) =
      groups.flatMap (fun g => g.2.map fun _ => g.1) := by
  induction groups with
  | nil => rfl
  | cons g rest ih =>
    simp only [layoutTriples, List.flatMap_cons, List.map_append, List.map_map] at *
    rw [ih]
    rfl

theorem insertGrouped_keys (acc : List (BFE × List (BFE × BFE))) (r : BFE) (e : BFE × BFE) :
    (insertGrouped acc r e).map Prod.fst =
      if r ∈ acc.map Prod.fst then acc.map Prod.fst else acc.map Prod.fst ++ [r] := by
  induction acc with
  | nil => simp [insertGrouped]
  | cons g rest ih =>
    obtain ⟨k, v⟩ := g
    by_cases hk : k = r
    · subst hk
      simp [insertGrouped]
    · simp only [insertGrouped, if_neg hk, List.map_cons, List.mem_cons]
      rw [ih]
      by_cases hr : r ∈ rest.map Prod.fst
      · simp [hr, Ne.symm hk]
      · simp [hr, Ne.symm hk]

theorem preProcessedRamTable_keys_nodup (rows : List ProcessorRow) :
    ((preProcessedRamTable rows).map Prod.fst).Nodup := by
  suffices h : ∀ acc : List (BFE × List (BFE × BFE)), (acc.map Prod.fst).Nodup →
      ((rows.foldl (fun acc r => insertGrouped acc r.ramp (r.clk, r.ramv)) acc).map
        Prod.fst).Nodup by
    exact h [] (by simp)
  induction rows with
  | nil => intro acc hacc; simpa using hacc
  | cons r rest ih =>
    intro acc hacc
    simp only [List.foldl_cons]
    refine ih _ ?_
    rw [insertGrouped_keys]
    by_cases hr : r.ramp ∈ acc.map Prod.fst
    · simpa [hr] using hacc
    · simp only [hr, if_false]
      exact List.Nodup.append hacc (List.nodup_singleton _)
        (by simpa using hr)

theorem mem_flatten_groups {x : BFE} {groups : List (BFE × List (BFE × BFE))}
    (h : x ∈ groups.flatMap (fun g => g.2.map fun _ => g.1)) :
    x ∈ groups.map Prod.fst := by
  simp only [List.mem_flatMap, List.mem_map] at h ⊢
  obtain ⟨g, hg, _, _, hx⟩ := h
  exact ⟨g, hg, hx⟩

theorem flatten_groups_contiguous (groups : List (BFE × List (BFE × BFE)))
    (hnd : (groups.map Prod.fst).Nodup) :
    OneContiguousBlock (groups.flatMap (fun g => g.2.map fun _ => g.1)) := by
  induction groups with
  | nil =>
    intro v
    exact ⟨[], [], [], by simp, by simp, by simp, by simp⟩
  | cons g rest ih =>
    simp only [List.map_cons, List.nodup_cons] at hnd
    obtain ⟨hk, hrest⟩ := hnd
    intro v
    rcases eq_or_ne v g.1 with rfl | hv
    · refine ⟨[], g.2.map fun _ => g.1, rest.flatMap (fun g => g.2.map fun _ => g.1),
        by simp, by simp, by simp, ?_⟩
      intro hmem
      exact hk (mem_flatten_groups hmem)
    · obtain ⟨pre, mid, post, hsplit, hmid, hpre, hpost⟩ := ih hrest v
      refine ⟨(g.2.map fun _ => g.1) ++ pre, mid, post, ?_, hmid, ?_, hpost⟩
      · simp only [List.flatMap_cons, hsplit, List.append_assoc]
      · simp only [List.mem_append, List.mem_map]
        rintro (⟨_, _, rfl⟩ | hmem)
        · exact hv rfl
        · exact hpre hmem

theorem fillTrace_rows_ramps {aet : AlgebraicExecutionTrace} {rows : List RamRow}
    {jumps : List BFE} (h : fillTrace aet = .ok (rows, jumps)) :
    rows.map RamRow.ramp =
      (preProcessedRamTable aet.processor_matrix).flatMap (fun g => g.2.map fun _ => g.1) := by
  simp only [fillTrace] at h
  split at h
  · cases h
  split at h
  · cases h
  split at h
  · cases h
  split at h
  · rename_i c0 q0 c1 q1 hq0 hq1
    split at h
    · cases h
    split at h
    · cases h
    · rename_i clk ramp ramv rest heq2
      split at h
      · cases h
      · rename_i rows' jumps' q0fin q1fin hres
        split at h
        · injection h with h
          injection h with hrows hjumps
          subst hrows
          have hmap := fillPairsAux_rows_map rest _ q0 q1 [] rows' _ hres
          rw [hmap, ← layoutTriples_map_ramp, heq2]
          rfl
        · cases h
  · cases h

/-- **C6.** In every table built by `fill_trace`, the rows sharing a
memory address form exactly one contiguous block: for each address value
the table splits as `pre ++ block ++ post` with the address constant on
the block and absent from `pre` and `post` (so no address reappears
after a different address has intervened). -/
theorem c6_ramp_blocks_contiguous
    (aet : AlgebraicExecutionTrace) (rows : List RamRow) (jumps : List BFE)
    (h : fillTrace aet = .ok (rows, jumps)) :
    OneContiguousBlock (rows.map RamRow.ramp) := by
  rw [fillTrace_rows_ramps h]
  exact flatten_groups_contiguous _ (preProcessedRamTable_keys_nodup _)

/-- A three-address AET exercising block contiguity. -/
def c6Aet : AlgebraicExecutionTrace :=
  ⟨[⟨0, 5, 0⟩, ⟨1, 5, 7⟩, ⟨2, 9, 0⟩, ⟨3, 5, 7⟩], []⟩

/-- Witness for C6 at a concrete AET (address 5 recurs at clock 3 after
address 9's block began; `fill_trace` still lays the table out in
contiguous blocks). -/
theorem c6_ramp_blocks_contiguous_witness :
    OneContiguousBlock (((fillTrace c6Aet).toOption.getD ([], [])).1.map RamRow.ramp) :=
  c6_ramp_blocks_contiguous c6Aet ((fillTrace c6Aet).toOption.getD ([], [])).1
    ((fillTrace c6Aet).toOption.getD ([], [])).2 (by decide)

/-! ## C10: `pad_trace` as a frame: list-slice lemmas -/

theorem writeSlice_length {l : List RamRow} {start : ℕ} {xs : List RamRow}
    (h : start + xs.length ≤ l.length) : (writeSlice l start xs).length = l.length := by
  simp only [writeSlice, List.length_append, List.length_take, List.length_drop]
  omega

theorem writeSlice_getElem?_lt {l : List RamRow} {start : ℕ} {xs : List RamRow} {i : ℕ}
    (h : i < start) (hs : start ≤ l.length) : (writeSlice l start xs)[i]? = l[i]? := by
  simp only [writeSlice]
  rw [List.append_assoc, List.getElem?_append_left (by simp; omega)]
  simp [List.getElem?_take, h]

theorem writeSlice_getElem?_mem {l : List RamRow} {start : ℕ} {xs : List RamRow} {i : ℕ}
    (hs : start ≤ l.length) (h1 : start ≤ i) (h2 : i < start + xs.length) :
    (writeSlice l start xs)[i]? = xs[i - start]? := by
  simp only [writeSlice]
  rw [List.append_assoc, List.getElem?_append_right (by simp; omega)]
  rw [List.getElem?_append_left (by simp at *; omega)]
  congr 1
  simp
  omega

theorem writeSlice_getElem?_ge {l : List RamRow} {start : ℕ} {xs : List RamRow} {i : ℕ}
    (hs : start ≤ l.length) (h : start + xs.length ≤ i) :
    (writeSlice l start xs)[i]? = l[i]? := by
  simp only [writeSlice]
  rw [List.append_assoc, List.getElem?_append_right (by simp; omega)]
  rw [List.getElem?_append_right (by simp at *; omega)]
  rw [List.getElem?_drop]
  congr 1
  simp at *
  omega

/-- The value `pad_trace` produces on its success path, as a function of
the table, the natural length, and the index of the maximal-clock row
(textually the tail of `padTrace` with the guards discharged). -/
def padTraceResult (t : List RamRow) (ptl idx : ℕ) : List RamRow :=
  let paddedHeight := t.length
  let numPaddingRows := paddedHeight - ptl
  let rowsToMoveSourceSectionStart := idx + 1
  let rowsToMoveSourceSectionEnd := ptl
  let numRowsToMove := rowsToMoveSourceSectionEnd - rowsToMoveSourceSectionStart
  let rowsToMoveDestSectionStart := rowsToMoveSourceSectionStart + numPaddingRows
  let paddingSectionStart := rowsToMoveSourceSectionStart
  let rowsToMove := (t.drop rowsToMoveSourceSectionStart).take numRowsToMove
  let t1 := writeSlice t rowsToMoveDestSectionStart rowsToMove
  let templateBase := t1.getD idx zeroRamRow
  let rampDifferenceInverse := templateBase.iord
  let template : RamRow := { templateBase with iord := 0, clk_di := 0 }
  let t2 := writeSlice t1 paddingSectionStart
    ((List.range numPaddingRows).map fun i => { template with clk := ((ptl + i : ℕ) : BFE) })
  let t3 := modifyRow t2 idx (fun r => { r with iord := 0, clk_di := 0 })
  if 0 < numRowsToMove ∧ 0 < rowsToMoveDestSectionStart then
    let maxClkAfterPadding := paddedHeight - 1
    let clkDiffMinusOneAtBoundary :=
      (t3.getD rowsToMoveDestSectionStart zeroRamRow).clk - ((maxClkAfterPadding : ℕ) : BFE) - 1
    let lastRowInPaddingSectionIdx := rowsToMoveDestSectionStart - 1
    modifyRow t3 lastRowInPaddingSectionIdx
      (fun r => { r with iord := rampDifferenceInverse,
                         clk_di := invOrZero clkDiffMinusOneAtBoundary })
  else t3

theorem padTrace_ok_of {t : List RamRow} {ptl idx : ℕ}
    (hptl : 0 < ptl) (hlen : ptl ≤ t.length)
    (hidx : t.findIdx? (fun row => row.clk.val = ptl - 1) = some idx)
    (hle : idx + 1 ≤ ptl) :
    padTrace t ptl = .ok (padTraceResult t ptl idx) := by
  unfold padTrace padTraceResult
  simp only [hidx]
  rw [if_neg (by omega), if_neg (by omega), if_neg (by omega), if_neg (by omega)]
  split <;> rfl

theorem padTrace_ok_dest {t : List RamRow} {ptl : ℕ} {t' : List RamRow}
    (h : padTrace t ptl = .ok t') :
    ∃ idx, 0 < ptl ∧ ptl ≤ t.length ∧
      t.findIdx? (fun row => row.clk.val = ptl - 1) = some idx ∧ idx + 1 ≤ ptl ∧
      t' = padTraceResult t ptl idx := by
  by_cases h0 : ptl = 0
  · simp [padTrace, h0] at h
  by_cases h1 : t.length < ptl
  · simp [padTrace, h0, h1] at h
  rcases hidx : t.findIdx? (fun row => row.clk.val = ptl - 1) with _ | idx
  · simp [padTrace, h0, h1, hidx] at h
  by_cases h2 : ptl < idx + 1
  · simp [padTrace, h0, h1, hidx, h2] at h
  have hok := @padTrace_ok_of t ptl idx
    (by omega) (by omega) hidx (by omega)
  rw [h] at hok
  exact ⟨idx, by omega, by omega, hidx, by omega, (Except.ok.injEq _ _ |>.mp hok)⟩

theorem modifyRow_length {l : List RamRow} {i : ℕ} {f : RamRow → RamRow}
    (h : i < l.length) : (modifyRow l i f).length = l.length := by
  unfold modifyRow
  apply writeSlice_length
  simp
  omega

theorem modifyRow_getElem?_ne {l : List RamRow} {i j : ℕ} {f : RamRow → RamRow}
    (hi : i < l.length) (h : j ≠ i) : (modifyRow l i f)[j]? = l[j]? := by
  unfold modifyRow
  rcases Nat.lt_or_ge j i with hj | hj
  · exact writeSlice_getElem?_lt hj (by omega)
  · refine writeSlice_getElem?_ge (by omega) ?_
    simp
    omega

theorem modifyRow_getElem?_eq {l : List RamRow} {i : ℕ} {f : RamRow → RamRow}
    (hi : i < l.length) : (modifyRow l i f)[i]? = (l[i]?).map f := by
  unfold modifyRow
  rw [writeSlice_getElem?_mem (by omega) (le_refl i) (by simp; omega)]
  simp [Nat.sub_self, List.getElem?_take, List.getElem?_drop]

section PadTraceRegions

variable {t : List RamRow} {ptl idx : ℕ}

theorem padTraceResult_parts (hlen : ptl ≤ t.length) (hle : idx + 1 ≤ ptl) :
    ∃ t3 : List RamRow,
      t3.length = t.length ∧
      (∀ i, i < idx → t3[i]? = t[i]?) ∧
      (t3[idx]? = (t[idx]?).map fun r => { r with iord := 0, clk_di := 0 }) ∧
      (∀ j, idx < j → j < ptl →
        t3[j + (t.length - ptl)]? = t[j]?) ∧
      (padTraceResult t ptl idx = t3 ∨
        (0 < ptl - (idx + 1) ∧
          ∃ g : RamRow → RamRow,
            (∀ r, (g r).clk = r.clk ∧ (g r).ramp = r.ramp ∧ (g r).ramv = r.ramv ∧
              (g r).bcpc0 = r.bcpc0 ∧ (g r).bcpc1 = r.bcpc1) ∧
            padTraceResult t ptl idx = modifyRow t3 (idx + (t.length - ptl)) g)) := by
  simp only [padTraceResult]
  set np := t.length - ptl with hnp
  set nm := ptl - (idx + 1) with hnm
  set moved := (t.drop (idx + 1)).take nm with hmoved
  have hmovedlen : moved.length = nm := by
    rw [hmoved]
    simp
    omega
  set t1 := writeSlice t (idx + 1 + np) moved with ht1
  have ht1len : t1.length = t.length := by
    rw [ht1]
    apply writeSlice_length
    omega
  set template := { (t1.getD idx zeroRamRow) with iord := 0, clk_di := 0 } with htmpl
  set pads := (List.range np).map
    (fun i => { template with clk := ((ptl + i : ℕ) : BFE) }) with hpads
  have hpadslen : pads.length = np := by rw [hpads]; simp
  set t2 := writeSlice t1 (idx + 1) pads with ht2
  have ht2len : t2.length = t.length := by
    rw [ht2]
    rw [writeSlice_length] <;> omega
  set t3 := modifyRow t2 idx (fun r => { r with iord := 0, clk_di := 0 }) with ht3
  have ht3len : t3.length = t.length := by
    rw [ht3, modifyRow_length] <;> omega
  have h3lt : ∀ i, i < idx → t3[i]? = t[i]? := by
    intro i hi
    rw [ht3, modifyRow_getElem?_ne (by omega) (by omega),
      ht2, writeSlice_getElem?_lt (by omega) (by omega),
      ht1, writeSlice_getElem?_lt (by omega) (by omega)]
  have h3idx : t3[idx]? = (t[idx]?).map fun r => { r with iord := 0, clk_di := 0 } := by
    rw [ht3, modifyRow_getElem?_eq (by omega),
      ht2, writeSlice_getElem?_lt (by omega) (by omega),
      ht1, writeSlice_getElem?_lt (by omega) (by omega)]
  have h3mv : ∀ j, idx < j → j < ptl → t3[j + np]? = t[j]? := by
    intro j hj1 hj2
    rw [ht3, modifyRow_getElem?_ne (by omega) (by omega),
      ht2, writeSlice_getElem?_ge (by omega) (by rw [hpadslen]; omega),
      ht1, writeSlice_getElem?_mem (by omega) (by omega) (by rw [hmovedlen]; omega)]
    rw [hmoved]
    simp only [List.getElem?_take, List.getElem?_drop]
    rw [if_pos (by omega)]
    congr 1
    omega
  refine ⟨t3, ht3len, h3lt, h3idx, h3mv, ?_⟩
  split
  next hcond =>
    right
    have heqi : idx + 1 + np - 1 = idx + np := by omega
    rw [heqi]
    refine ⟨by omega, _, ?_, rfl⟩
    intro r
    exact ⟨rfl, rfl, rfl, rfl, rfl⟩
  next hcond => exact Or.inl rfl

end PadTraceRegions

/-- **C10.** `pad_trace` preserves the real rows' data up to relocation:
whenever it succeeds, the rows before the maximal-clock row are untouched,
the maximal-clock row keeps its `CLK`, `RAMP`, `RAMV` and both
Bézout-coefficient columns (only its two inverse-helper columns may
change), and every row after it within the natural length reappears at
the tail — shifted by the number of padding rows, in the original
relative order — with *all* columns intact. -/
theorem c10_padTrace_preserves_data_columns
    (t : List RamRow) (ptl : ℕ) (t' : List RamRow) (h : padTrace t ptl = .ok t') :
    ∃ idx, t.findIdx? (fun row => row.clk.val = ptl - 1) = some idx ∧
      t'.length = t.length ∧
      (∀ i, i < idx → t'[i]? = t[i]?) ∧
      (∀ r, t[idx]? = some r → ∃ r', t'[idx]? = some r' ∧ r'.clk = r.clk ∧ r'.ramp = r.ramp ∧
        r'.ramv = r.ramv ∧ r'.bcpc0 = r.bcpc0 ∧ r'.bcpc1 = r.bcpc1) ∧
      (∀ j, idx < j → j < ptl → t'[j + (t.length - ptl)]? = t[j]?) := by
  obtain ⟨idx, hptl, hlen, hidx, hle, ht'⟩ := padTrace_ok_dest h
  obtain ⟨t3, ht3len, h3lt, h3idx, h3mv, hres⟩ := padTraceResult_parts hlen hle
  refine ⟨idx, hidx, ?_, ?_, ?_, ?_⟩
  · rcases hres with hres | ⟨hnm, g, hg, hres⟩
    · rw [ht', hres, ht3len]
    · rw [ht', hres, modifyRow_length (by omega), ht3len]
  · intro i hi
    rcases hres with hres | ⟨hnm, g, hg, hres⟩
    · rw [ht', hres]
      exact h3lt i hi
    · rw [ht', hres, modifyRow_getElem?_ne (by omega) (by omega)]
      exact h3lt i hi
  · intro r hr
    rcases hres with hres | ⟨hnm, g, hg, hres⟩
    · rw [ht', hres]
      refine ⟨_, by rw [h3idx, hr]; rfl, ?_, ?_, ?_, ?_, ?_⟩ <;> rfl
    · rw [ht', hres]
      by_cases hnp : t.length - ptl = 0
      · rw [hnp, Nat.add_zero, modifyRow_getElem?_eq (by omega), h3idx, hr]
        obtain ⟨h1, h2, h3, h4, h5⟩ := hg ({ r with iord := 0, clk_di := 0 })
        exact ⟨_, rfl, h1, h2, h3, h4, h5⟩
      · rw [modifyRow_getElem?_ne (by omega) (by omega), h3idx, hr]
        refine ⟨_, rfl, ?_, ?_, ?_, ?_, ?_⟩ <;> rfl
  · intro j hj1 hj2
    rcases hres with hres | ⟨hnm, g, hg, hres⟩
    · rw [ht', hres]
      exact h3mv j hj1 hj2
    · rw [ht', hres, modifyRow_getElem?_ne (by omega) (by omega)]
      exact h3mv j hj1 hj2

/-! ## C7: idempotence of padding -/

theorem writeSlice_nil (l : List RamRow) (s : ℕ) : writeSlice l s [] = l := by
  simp [writeSlice]

theorem writeSlice_self {l : List RamRow} {start : ℕ} {xs : List RamRow}
    (hs : start + xs.length ≤ l.length)
    (h : ∀ k, k < xs.length → l[start + k]? = xs[k]?) :
    writeSlice l start xs = l := by
  apply List.ext_getElem?
  intro i
  rcases Nat.lt_or_ge i start with hi | hi
  · exact writeSlice_getElem?_lt hi (by omega)
  · rcases Nat.lt_or_ge i (start + xs.length) with hi2 | hi2
    · rw [writeSlice_getElem?_mem (by omega) hi hi2]
      rw [← h (i - start) (by omega)]
      congr 1
      omega
    · exact writeSlice_getElem?_ge (by omega) hi2

theorem modifyRow_self {l : List RamRow} {i : ℕ} {f : RamRow → RamRow} {r : RamRow}
    (hr : l[i]? = some r) (hf : f r = r) : modifyRow l i f = l := by
  have hi : i < l.length := by
    by_contra hc
    rw [List.getElem?_eq_none (by omega)] at hr
    cases hr
  apply List.ext_getElem?
  intro j
  rcases eq_or_ne j i with rfl | hj
  · rw [modifyRow_getElem?_eq hi, hr]
    simp [hf]
  · exact modifyRow_getElem?_ne hi hj

theorem findIdx?_eq_some_iff_getElem {α} {p : α → Bool} {l : List α} {i : ℕ} :
    l.findIdx? p = some i ↔
      i < l.length ∧ (∀ x, l[i]? = some x → p x = true) ∧
        (∀ j, j < i → ∀ x, l[j]? = some x → p x = false) := by
  induction l generalizing i with
  | nil => simp
  | cons a l ih =>
    rw [List.findIdx?_cons]
    by_cases hp : p a
    · simp only [hp, cond_true]
      constructor
      · rintro h
        injection h with h
        subst h
        refine ⟨by simp, by simp [hp], by omega⟩
      · rintro ⟨hlen, hi, hj⟩
        cases i with
        | zero => rfl
        | succ i =>
          have := hj 0 (by omega) a (by simp)
          rw [hp] at this
          cases this
    · simp only [hp, cond_false, Nat.zero_add, List.findIdx?_succ]
      constructor
      · intro h
        have h2 : ∃ i', i = i' + 1 ∧ l.findIdx? p = some i' := by
          cases hmap : l.findIdx? p with
          | none => rw [hmap] at h; simp at h
          | some i' =>
            rw [hmap] at h
            simp at h
            exact ⟨i', h.symm, rfl⟩
        obtain ⟨i', rfl, hfind⟩ := h2
        obtain ⟨hlen, hi, hj⟩ := ih.mp hfind
        refine ⟨by simpa using hlen, by simpa using hi, ?_⟩
        intro j hjlt x hx
        cases j with
        | zero =>
          simp at hx
          subst hx
          simpa using hp
        | succ j =>
          simp at hx
          exact hj j (by omega) x hx
      · rintro ⟨hlen, hi, hj⟩
        cases i with
        | zero =>
          exact absurd (hi a (by simp)) hp
        | succ i =>
          have hfind : l.findIdx? p = some i := by
            refine ih.mpr ⟨by simpa using hlen, by simpa using hi, ?_⟩
            intro j hjlt x hx
            exact hj (j + 1) (by omega) x (by simpa using hx)
          rw [hfind]
          rfl

theorem padTraceResult_no_moves {t : List RamRow} {ptl idx : ℕ}
    (hnm : ptl - (idx + 1) = 0) :
    padTraceResult t ptl idx =
      modifyRow
        (writeSlice t (idx + 1)
          ((List.range (t.length - ptl)).map fun i =>
            { (t.getD idx zeroRamRow) with
              iord := 0, clk_di := 0, clk := ((ptl + i : ℕ) : BFE) }))
        idx (fun r => { r with iord := 0, clk_di := 0 }) := by
  simp only [padTraceResult]
  rw [hnm]
  rw [List.take_zero, writeSlice_nil]
  rw [if_neg (by simp)]

theorem padTrace_second_noop {t : List RamRow} {ptl idx : ℕ} {t' : List RamRow}
    (h : padTrace t ptl = .ok t')
    (hidx : t.findIdx? (fun row => row.clk.val = ptl - 1) = some idx)
    (hlast : idx + 1 = ptl) : padTrace t' ptl = .ok t' := by
  obtain ⟨idx', hptl, hlen, hidx', hle', ht'⟩ := padTrace_ok_dest h
  rw [hidx] at hidx'
  injection hidx' with hidx'
  subst hidx'
  rw [padTraceResult_no_moves (by omega)] at ht'
  obtain ⟨hidxlen, hpred, hprior⟩ := findIdx?_eq_some_iff_getElem.mp hidx
  have hr : t[idx]? = some t[idx] := List.getElem?_eq_getElem hidxlen
  set r := t[idx] with hrdef
  set np := t.length - ptl with hnp
  set pads := (List.range np).map
    (fun i => { (t.getD idx zeroRamRow) with
                iord := 0, clk_di := 0, clk := ((ptl + i : ℕ) : BFE) }) with hpads
  have hpadslen : pads.length = np := by rw [hpads]; simp
  have hws : (writeSlice t (idx + 1) pads).length = t.length := by
    rw [writeSlice_length]
    omega
  have ht'len : t'.length = t.length := by
    rw [ht', modifyRow_length (by omega)]
    exact hws
  have ht'lt : ∀ j, j < idx → t'[j]? = t[j]? := by
    intro j hj
    rw [ht', modifyRow_getElem?_ne (by omega) (by omega),
      writeSlice_getElem?_lt (by omega) (by omega)]
  have ht'idx : t'[idx]? = some { r with iord := 0, clk_di := 0 } := by
    rw [ht', modifyRow_getElem?_eq (by omega),
      writeSlice_getElem?_lt (by omega) (by omega), hr]
    rfl
  have ht'pad : ∀ k, k < np → t'[idx + 1 + k]? = pads[k]? := by
    intro k hk
    rw [ht', modifyRow_getElem?_ne (by omega) (by omega),
      writeSlice_getElem?_mem (by omega) (by omega) (by omega)]
    congr 1
    omega
  have hfind' : t'.findIdx? (fun row => row.clk.val = ptl - 1) = some idx := by
    refine findIdx?_eq_some_iff_getElem.mpr ⟨by omega, ?_, ?_⟩
    · intro x hx
      rw [ht'idx] at hx
      injection hx with hx
      subst hx
      exact hpred r hr
    · intro j hj x hx
      rw [ht'lt j hj] at hx
      exact hprior j hj x hx
  rw [padTrace_ok_of hptl (by omega) hfind' (by omega)]
  congr 1
  rw [padTraceResult_no_moves (by omega)]
  have hgetD : t'.getD idx zeroRamRow = { r with iord := 0, clk_di := 0 } := by
    rw [List.getD_eq_getElem?_getD, ht'idx]
    rfl
  have hgd : t.getD idx zeroRamRow = r := by
    rw [List.getD_eq_getElem?_getD, hr]
    rfl
  have hpads' : ((List.range (t'.length - ptl)).map fun i =>
      { (t'.getD idx zeroRamRow) with
        iord := 0, clk_di := 0, clk := ((ptl + i : ℕ) : BFE) }) = pads := by
    rw [ht'len, hgetD, hpads, hgd]
  rw [hpads']
  rw [writeSlice_self (by omega) (fun k hk => ht'pad k (by omega))]
  exact modifyRow_self ht'idx rfl

theorem padTrace_at_target_length {t : List RamRow} {ptl : ℕ} {t' : List RamRow}
    (h : padTrace t ptl = .ok t') (htarget : t.length = ptl) :
    ∃ idx, t.findIdx? (fun row => row.clk.val = ptl - 1) = some idx ∧
      t'.length = t.length ∧
      (∀ i, i ≠ idx → t'[i]? = t[i]?) ∧
      (∀ r, t[idx]? = some r → ∃ r', t'[idx]? = some r' ∧ r'.clk = r.clk ∧ r'.ramp = r.ramp ∧
        r'.ramv = r.ramv ∧ r'.bcpc0 = r.bcpc0 ∧ r'.bcpc1 = r.bcpc1) := by
  obtain ⟨idx, hptl, hlen, hidx, hle, ht'⟩ := padTrace_ok_dest h
  obtain ⟨t3, ht3len, h3lt, h3idx, h3mv, hres⟩ := padTraceResult_parts hlen hle
  have hnp : t.length - ptl = 0 := by omega
  have ht3all : ∀ i, i ≠ idx → t3[i]? = t[i]? := by
    intro i hi
    rcases Nat.lt_or_ge i idx with hlt | hge
    · exact h3lt i hlt
    · rcases Nat.lt_or_ge i ptl with hlt2 | hge2
      · have := h3mv i (by omega) hlt2
        rwa [hnp, Nat.add_zero] at this
      · rw [List.getElem?_eq_none (by omega), List.getElem?_eq_none (by omega)]
  refine ⟨idx, hidx, ?_, ?_, ?_⟩
  · rcases hres with hres | ⟨hnm, g, hg, hres⟩
    · rw [ht', hres, ht3len]
    · rw [ht', hres, modifyRow_length (by omega), ht3len]
  · intro i hi
    rcases hres with hres | ⟨hnm, g, hg, hres⟩
    · rw [ht', hres]
      exact ht3all i hi
    · rw [ht', hres, modifyRow_getElem?_ne (by omega) (by rw [hnp]; omega)]
      exact ht3all i hi
  · intro r hr
    rcases hres with hres | ⟨hnm, g, hg, hres⟩
    · rw [ht', hres]
      refine ⟨_, by rw [h3idx, hr]; rfl, ?_, ?_, ?_, ?_, ?_⟩ <;> rfl
    · rw [ht', hres, hnp, Nat.add_zero, modifyRow_getElem?_eq (by omega), h3idx, hr]
      obtain ⟨h1, h2, h3, h4, h5⟩ := hg ({ r with iord := 0, clk_di := 0 })
      exact ⟨_, rfl, h1, h2, h3, h4, h5⟩

/-- **C7 (amended).** (i) For every table whose length already equals the
natural length (nothing to pad), `pad_trace` changes at most the two
inverse-helper columns of the maximal-clock row: every other row is
returned unchanged, and that row keeps its `CLK`, `RAMP`, `RAMV` and both
Bézout-coefficient columns.  (ii) Padding twice with the same natural
length is a no-op on the second call *provided* the maximal-clock row is
the last row of the natural-length prefix (no rows are moved past it);
when rows do lie past the maximal-clock row the second call is not a
no-op (see the counterexample). -/
theorem c7_padding_idempotent_amended :
    (∀ (t : List RamRow) (ptl : ℕ) (t' : List RamRow),
      padTrace t ptl = .ok t' → t.length = ptl →
      ∃ idx, t.findIdx? (fun row => row.clk.val = ptl - 1) = some idx ∧
        t'.length = t.length ∧
        (∀ i, i ≠ idx → t'[i]? = t[i]?) ∧
        (∀ r, t[idx]? = some r → ∃ r', t'[idx]? = some r' ∧ r'.clk = r.clk ∧
          r'.ramp = r.ramp ∧ r'.ramv = r.ramv ∧ r'.bcpc0 = r.bcpc0 ∧ r'.bcpc1 = r.bcpc1)) ∧
    (∀ (t : List RamRow) (ptl idx : ℕ) (t' : List RamRow),
      padTrace t ptl = .ok t' →
      t.findIdx? (fun row => row.clk.val = ptl - 1) = some idx →
      idx + 1 = ptl →
      padTrace t' ptl = .ok t') :=
  ⟨fun _ _ _ h ht => padTrace_at_target_length h ht,
   fun _ _ _ _ h hidx hlast => padTrace_second_noop h hidx hlast⟩

/-- A table already at its natural length (C7 witness, part i). -/
def c7TargetTable : List RamRow :=
  [⟨0, 3, 5, 0, 0, 0, 0⟩, ⟨1, 3, 6, 0, 0, 0, 0⟩, ⟨2, 3, 7, 0, 0, 0, 0⟩]

/-- A table with the maximal-clock row last in the natural prefix
(C7 witness, part ii). -/
def c7NoopTable : List RamRow := c7TargetTable ++ [zeroRamRow]

/-- `c7NoopTable` padded once. -/
def c7NoopPadded : List RamRow := (padTrace c7NoopTable 3).toOption.getD []

/-- Witness for the amended C7 at concrete tables. -/
theorem c7_padding_idempotent_amended_witness :
    (∃ idx, c7TargetTable.findIdx? (fun row => row.clk.val = 3 - 1) = some idx ∧
      ((padTrace c7TargetTable 3).toOption.getD []).length = c7TargetTable.length ∧
      (∀ i, i ≠ idx → ((padTrace c7TargetTable 3).toOption.getD [])[i]? = c7TargetTable[i]?) ∧
      (∀ r, c7TargetTable[idx]? = some r →
        ∃ r', ((padTrace c7TargetTable 3).toOption.getD [])[idx]? = some r' ∧
          r'.clk = r.clk ∧ r'.ramp = r.ramp ∧ r'.ramv = r.ramv ∧
          r'.bcpc0 = r.bcpc0 ∧ r'.bcpc1 = r.bcpc1)) ∧
    padTrace c7NoopPadded 3 = .ok c7NoopPadded :=
  ⟨c7_padding_idempotent_amended.1 c7TargetTable 3
      ((padTrace c7TargetTable 3).toOption.getD []) (by decide) (by decide),
   c7_padding_idempotent_amended.2 c7NoopTable 3 2 c7NoopPadded (by decide) (by decide)
      (by decide)⟩

/-- A concrete table for the C10 witness. -/
def c10Table : List RamRow :=
  [⟨0, 4, 1, 0, 0, 0, 0⟩, ⟨1, 4, 2, 0, 0, 0, 0⟩, ⟨2, 4, 3, 0, 0, 0, 0⟩, zeroRamRow]

/-- Witness for C10 at a concrete table. -/
theorem c10_padTrace_preserves_data_columns_witness :
    ∃ idx, c10Table.findIdx? (fun row => row.clk.val = 3 - 1) = some idx ∧
      ((padTrace c10Table 3).toOption.getD []).length = c10Table.length ∧
      (∀ i, i < idx → ((padTrace c10Table 3).toOption.getD [])[i]? = c10Table[i]?) ∧
      (∀ r, c10Table[idx]? = some r →
        ∃ r', ((padTrace c10Table 3).toOption.getD [])[idx]? = some r' ∧
          r'.clk = r.clk ∧ r'.ramp = r.ramp ∧ r'.ramv = r.ramv ∧
          r'.bcpc0 = r.bcpc0 ∧ r'.bcpc1 = r.bcpc1) ∧
      (∀ j, idx < j → j < 3 →
        ((padTrace c10Table 3).toOption.getD [])[j + (c10Table.length - 3)]? = c10Table[j]?) :=
  c10_padTrace_preserves_data_columns c10Table 3
    ((padTrace c10Table 3).toOption.getD []) (by decide)

/-! ## C8: `simulate` preserves the accumulated AET on step failure -/

theorem canonicalSnapshots_succ {S E : Type} (sem : StepSemantics S E) (s0 : S)
    (i0 sec0 : List BFE) (k : ℕ) {cfg : S × List BFE × List BFE}
    (h : runConfig sem s0 i0 sec0 (k + 1) = some cfg) :
    canonicalSnapshots sem s0 i0 sec0 (k + 1) =
      canonicalSnapshots sem s0 i0 sec0 k ++ [sem.toProcessorRow cfg.1] := by
  unfold canonicalSnapshots
  rw [List.range_succ, List.filterMap_append]
  congr 1
  simp [h]

theorem simulateLoop_invariant {S E : Type} (sem : StepSemantics S E) (s0 : S)
    (i0 sec0 : List BFE) :
    ∀ (fuel k : ℕ) (s : S) (i sec : List BFE) (aet : AlgebraicExecutionTrace)
      (stdout : List BFE) (aet' : AlgebraicExecutionTrace) (out' : List BFE) (err : Option E),
      runConfig sem s0 i0 sec0 k = some (s, i, sec) →
      aet.processor_matrix = canonicalSnapshots sem s0 i0 sec0 k →
      simulateLoop sem fuel s i sec aet stdout = some (aet', out', err) →
      (∀ e, err = some e → ∃ k' cfg, runConfig sem s0 i0 sec0 k' = some cfg ∧
         sem.isComplete cfg.1 = false ∧ sem.stepMut cfg.1 cfg.2.1 cfg.2.2 = .error e ∧
         aet'.processor_matrix = canonicalSnapshots sem s0 i0 sec0 k') ∧
      (err = none → ∃ k' cfg, runConfig sem s0 i0 sec0 k' = some cfg ∧
         sem.isComplete cfg.1 = true ∧
         aet'.processor_matrix = canonicalSnapshots sem s0 i0 sec0 k') := by
  intro fuel
  induction fuel with
  | zero =>
    intro k s i sec aet stdout aet' out' err hrun haet hsim
    cases hsim
  | succ fuel ih =>
    intro k s i sec aet stdout aet' out' err hrun haet hsim
    unfold simulateLoop at hsim
    by_cases hc : sem.isComplete s
    · rw [if_pos hc] at hsim
      simp only [Option.some.injEq, Prod.mk.injEq] at hsim
      obtain ⟨rfl, rfl, herr⟩ := hsim
      constructor
      · intro e he
        rw [← herr] at he
        cases he
      · intro _
        exact ⟨k, (s, i, sec), hrun, hc, haet⟩
    · rw [if_neg hc] at hsim
      cases hstep : sem.stepMut s i sec with
      | error e =>
        rw [hstep] at hsim
        simp only [Option.some.injEq, Prod.mk.injEq] at hsim
        obtain ⟨rfl, rfl, herr⟩ := hsim
        constructor
        · intro e' he
          rw [← herr] at he
          injection he with he
          subst he
          exact ⟨k, (s, i, sec), hrun, by simpa using hc, hstep, haet⟩
        · intro hnone
          rw [← herr] at hnone
          cases hnone
      | ok res =>
        obtain ⟨s', i', sec', vout⟩ := res
        rw [hstep] at hsim
        have hrun' : runConfig sem s0 i0 sec0 (k + 1) = some (s', i', sec') := by
          simp [runConfig, hrun, hc, hstep]
        refine ih (k + 1) s' i' sec' _ _ aet' out' err hrun' ?_ hsim
        rw [canonicalSnapshots_succ sem s0 i0 sec0 k hrun']
        cases vout with
        | none => simpa using haet
        | some o =>
          cases o with
          | xlixTrace t => simpa using haet
          | writeOutputSymbol w => simpa using haet

/-- **C8.** For every program (represented by its opaque step semantics)
and every pair of input streams, whenever `simulate` terminates: if a
step failed, the returned AET consists exactly of the snapshots recorded
before the failing step — the initial state's snapshot and one snapshot
per successful step, unchanged — together with the error of that one
failing step (no retry: the failing step is the single step out of the
configuration reached by the successful prefix); and the error component
is `some` exactly when a step failed (on completion it is `none` and the
AET is the canonical snapshot list of the completed run). -/
theorem c8_simulate_error_preserves_aet {S E : Type} (sem : StepSemantics S E)
    (s0 : S) (stdin secretIn : List BFE) (fuel : ℕ) (aet : AlgebraicExecutionTrace)
    (out : List BFE) (err : Option E)
    (h : simulate sem s0 stdin secretIn fuel = some (aet, out, err)) :
    (∀ e, err = some e → ∃ k cfg, runConfig sem s0 stdin secretIn k = some cfg ∧
       sem.isComplete cfg.1 = false ∧ sem.stepMut cfg.1 cfg.2.1 cfg.2.2 = .error e ∧
       aet.processor_matrix = canonicalSnapshots sem s0 stdin secretIn k) ∧
    (err = none → ∃ k cfg, runConfig sem s0 stdin secretIn k = some cfg ∧
       sem.isComplete cfg.1 = true ∧
       aet.processor_matrix = canonicalSnapshots sem s0 stdin secretIn k) := by
  refine simulateLoop_invariant sem s0 stdin secretIn fuel 0 s0 stdin secretIn
    { processor_matrix := [sem.toProcessorRow s0], hash_matrix := [] } [] aet out err rfl ?_ h
  simp [canonicalSnapshots, runConfig, List.range_succ]

/-- The step semantics of the C8 witness: a counter machine whose step
succeeds once and then fails. -/
def c8Sem : StepSemantics ℕ Unit where
  isComplete := fun _ => false
  stepMut := fun n i sec => if n < 1 then .ok (n + 1, i, sec, none) else .error ()
  toProcessorRow := fun n => ⟨(n : BFE), 0, 0⟩

/-- Witness for C8: the machine records snapshots 0 and 1, then its step
fails; `simulate` returns exactly those two snapshots with the error. -/
theorem c8_simulate_error_preserves_aet_witness :
    (∀ e, (some () : Option Unit) = some e → ∃ k cfg, runConfig c8Sem 0 [] [] k = some cfg ∧
       c8Sem.isComplete cfg.1 = false ∧ c8Sem.stepMut cfg.1 cfg.2.1 cfg.2.2 = .error e ∧
       (AlgebraicExecutionTrace.mk [⟨0, 0, 0⟩, ⟨1, 0, 0⟩] []).processor_matrix =
         canonicalSnapshots c8Sem 0 [] [] k) ∧
    ((some () : Option Unit) = none → ∃ k cfg, runConfig c8Sem 0 [] [] k = some cfg ∧
       c8Sem.isComplete cfg.1 = true ∧
       (AlgebraicExecutionTrace.mk [⟨0, 0, 0⟩, ⟨1, 0, 0⟩] []).processor_matrix =
         canonicalSnapshots c8Sem 0 [] [] k) :=
  c8_simulate_error_preserves_aet c8Sem 0 [] [] 5
    ⟨[⟨0, 0, 0⟩, ⟨1, 0, 0⟩], []⟩ [] (some ()) (by decide)

/-! ## The bridge from coefficient lists to Mathlib polynomials

Specification-side (noncomputable) interpretation of `BPoly` coefficient
lists as `Polynomial BFE`, used to prove that the Bézout assertions of
`fill_trace` never fire (C5) and that `fill_trace` is total on non-empty
traces (C9). -/

namespace BPoly

open Polynomial

/-- Interpret a coefficient list as a polynomial. -/
noncomputable def toPoly : List BFE → Polynomial BFE
  | [] => 0
  | a :: p => C a + X * toPoly p

theorem toPoly_nil : toPoly [] = 0 := rfl

theorem toPoly_cons (a : BFE) (p : List BFE) : toPoly (a :: p) = C a + X * toPoly p := rfl

theorem toPoly_coeff : ∀ (p : List BFE) (n : ℕ), (toPoly p).coeff n = p.getD n 0
  | [], n => by simp [toPoly]
  | a :: p, 0 => by simp [toPoly_cons, coeff_add, coeff_C, mul_coeff_zero]
  | a :: p, n + 1 => by
    rw [toPoly_cons, coeff_add, coeff_C, coeff_X_mul, toPoly_coeff p n]
    simp

theorem toPoly_trim : ∀ p : List BFE, toPoly (trim p) = toPoly p
  | [] => rfl
  | a :: p => by
    rw [trim]
    cases htp : trim p with
    | nil =>
      have hp : toPoly p = 0 := by rw [← toPoly_trim p, htp, toPoly_nil]
      by_cases ha : a = 0
      · simp [ha, toPoly_cons, hp, toPoly_nil]
      · simp [ha, toPoly_cons, hp, toPoly_nil]
    | cons b r =>
      have h2 : toPoly p = C b + X * toPoly r := by
        rw [← toPoly_trim p, htp, toPoly_cons]
      simp only [toPoly_cons, h2]

theorem trim_trimmed : ∀ p : List BFE, Trimmed (trim p)
  | [] => by simp [Trimmed, trim]
  | a :: p => by
    rw [trim]
    cases htp : trim p with
    | nil =>
      by_cases ha : a = 0
      · simp [ha, Trimmed]
      · simp [ha, Trimmed]
    | cons b r =>
      have := trim_trimmed p
      rw [htp] at this
      simpa [Trimmed, List.getLast?_cons_cons] using this

theorem getD_eq_zero_of_le {p : List BFE} {n : ℕ} (h : p.length ≤ n) : p.getD n 0 = 0 := by
  rw [List.getD_eq_getElem?_getD, List.getElem?_eq_none h]
  rfl

theorem toPoly_coeff_last {p : List BFE} (h : p ≠ []) :
    (toPoly p).coeff (p.length - 1) = p.getLast h := by
  rw [toPoly_coeff, List.getLast_eq_getElem, List.getD_eq_getElem?_getD,
    List.getElem?_eq_getElem (by have := List.length_pos.mpr h; omega)]
  rfl

theorem toPoly_ne_zero {p : List BFE} (ht : Trimmed p) (h : p ≠ []) : toPoly p ≠ 0 := by
  intro hz
  have hc := toPoly_coeff_last h
  rw [hz, coeff_zero] at hc
  rw [Trimmed, List.getLast?_eq_getLast p h] at ht
  exact ht (by rw [← hc])

theorem degree_toPoly {p : List BFE} (ht : Trimmed p) (h : p ≠ []) :
    (toPoly p).degree = ((p.length - 1 : ℕ) : WithBot ℕ) := by
  apply le_antisymm
  · rw [degree_le_iff_coeff_zero]
    intro m hm
    rw [toPoly_coeff]
    apply getD_eq_zero_of_le
    have hm' : p.length - 1 < m := by exact_mod_cast hm
    omega
  · apply le_degree_of_ne_zero
    rw [toPoly_coeff_last h]
    rw [Trimmed, List.getLast?_eq_getLast p h] at ht
    intro hz
    exact ht (by rw [hz])

theorem natDegree_toPoly {p : List BFE} (ht : Trimmed p) (h : p ≠ []) :
    (toPoly p).natDegree = p.length - 1 :=
  natDegree_eq_of_degree_eq_some (degree_toPoly ht h)

theorem leadingCoeff_toPoly {p : List BFE} (ht : Trimmed p) (h : p ≠ []) :
    (toPoly p).leadingCoeff = p.getLast h := by
  rw [leadingCoeff, natDegree_toPoly ht h, toPoly_coeff_last h]

theorem trim_length_le_of_degree_le {p : List BFE} {k : ℕ}
    (h : (toPoly p).degree ≤ (k : WithBot ℕ)) : (trim p).length ≤ k + 1 := by
  cases htp : trim p with
  | nil => simp
  | cons b r =>
    have hne : trim p ≠ [] := by rw [htp]; simp
    have hd := degree_toPoly (trim_trimmed p) hne
    rw [toPoly_trim] at hd
    rw [hd] at h
    have h2 : (trim p).length - 1 ≤ k := by exact_mod_cast h
    rw [htp] at h2
    simp only [List.length_cons] at h2 ⊢
    omega

theorem toPoly_addAux : ∀ p q : List BFE, toPoly (addAux p q) = toPoly p + toPoly q
  | [], q => by simp [addAux, toPoly_nil]
  | a :: p, [] => by simp [addAux, toPoly_nil]
  | a :: p, b :: q => by
    rw [addAux, toPoly_cons, toPoly_addAux p q, toPoly_cons, toPoly_cons, C_add]
    ring

theorem toPoly_add (p q : List BFE) : toPoly (add p q) = toPoly p + toPoly q := by
  rw [add, toPoly_trim, toPoly_addAux]

theorem toPoly_neg : ∀ p : List BFE, toPoly (neg p) = -toPoly p
  | [] => by simp [neg, toPoly_nil]
  | a :: p => by
    rw [neg] at *
    simp only [List.map_cons, toPoly_cons]
    rw [show List.map Neg.neg p = neg p from rfl, toPoly_neg p, show (-a : BFE) = -a from rfl,
      C_neg]
    ring

theorem toPoly_sub (p q : List BFE) : toPoly (sub p q) = toPoly p - toPoly q := by
  rw [sub, toPoly_add, toPoly_neg]
  ring

theorem toPoly_map_mul (c : BFE) : ∀ p : List BFE,
    toPoly (p.map (c * ·)) = C c * toPoly p
  | [] => by simp [toPoly_nil]
  | a :: p => by
    simp only [List.map_cons, toPoly_cons]
    rw [toPoly_map_mul c p, C_mul]
    ring

theorem toPoly_scale (c : BFE) (p : List BFE) : toPoly (scale c p) = C c * toPoly p := by
  rw [scale, toPoly_trim, toPoly_map_mul]

theorem toPoly_mulAux : ∀ p q : List BFE, toPoly (mulAux p q) = toPoly p * toPoly q
  | [], q => by simp [mulAux, toPoly_nil]
  | a :: p, q => by
    rw [mulAux, toPoly_addAux, toPoly_map_mul, toPoly_cons, toPoly_cons, toPoly_mulAux p q, C_0]
    ring

theorem toPoly_mul (p q : List BFE) : toPoly (mul p q) = toPoly p * toPoly q := by
  rw [mul, toPoly_trim, toPoly_mulAux]

theorem toPoly_monomial (c : BFE) : ∀ k : ℕ, toPoly (monomial k c) = C c * X ^ k
  | 0 => by simp [monomial, toPoly_cons, toPoly_nil]
  | k + 1 => by
    have h : monomial (k + 1) c = 0 :: monomial k c := rfl
    rw [h, toPoly_cons, toPoly_monomial c k, C_0]
    ring

theorem toPoly_derivAux : ∀ (p : List BFE) (i : ℕ),
    toPoly (derivAux i p) =
      C (i : BFE) * toPoly p + X * Polynomial.derivative (toPoly p)
  | [], i => by simp [derivAux, toPoly_nil]
  | a :: p, i => by
    rw [derivAux, toPoly_cons, toPoly_derivAux p (i + 1), toPoly_cons]
    rw [derivative_add, derivative_C, derivative_mul, derivative_X]
    push_cast [C_add, C_mul, C_1]
    ring

theorem toPoly_derivative (p : List BFE) :
    toPoly (BPoly.derivative p) = Polynomial.derivative (toPoly p) := by
  cases p with
  | nil => simp [BPoly.derivative, toPoly_nil]
  | cons a rest =>
    rw [BPoly.derivative, toPoly_trim, toPoly_derivAux rest 1, toPoly_cons]
    rw [derivative_add, derivative_C, derivative_mul, derivative_X]
    push_cast [C_1]
    ring

theorem trim_length_le_of_degree_lt {p : List BFE} {k : ℕ}
    (h : (toPoly p).degree < (k : WithBot ℕ)) : (trim p).length ≤ k := by
  cases htp : trim p with
  | nil => simp
  | cons b r =>
    have hne : trim p ≠ [] := by rw [htp]; simp
    have hd := degree_toPoly (trim_trimmed p) hne
    rw [toPoly_trim] at hd
    rw [hd] at h
    have h2 : (trim p).length - 1 < k := by exact_mod_cast h
    rw [htp] at h2
    simp only [List.length_cons] at h2 ⊢
    omega

theorem getLastD_eq_getLast {p : List BFE} (h : p ≠ []) : p.getLastD 0 = p.getLast h := by
  rw [List.getLastD_eq_getLast?, List.getLast?_eq_getLast p h]
  rfl

theorem getLastD_ne_zero {p : List BFE} (ht : Trimmed p) (h : p ≠ []) : p.getLastD 0 ≠ 0 := by
  rw [getLastD_eq_getLast h]
  rw [Trimmed, List.getLast?_eq_getLast p h] at ht
  intro hz
  exact ht (by rw [hz])

theorem trim_nil : trim ([] : List BFE) = [] := rfl

theorem trim_eq_self : ∀ {p : List BFE}, Trimmed p → trim p = p
  | [], _ => rfl
  | a :: p, h => by
    have hp : Trimmed p := by
      cases p with
      | nil => simp [Trimmed]
      | cons b q => simpa [Trimmed, List.getLast?_cons_cons] using h
    rw [trim, trim_eq_self hp]
    cases p with
    | nil =>
      have : a ≠ 0 := by simpa [Trimmed] using h
      simp [this]
    | cons b q => rfl

theorem trim_idem (p : List BFE) : trim (trim p) = trim p :=
  trim_eq_self (trim_trimmed p)

theorem divModAux_spec {y : List BFE} (hy : trim y ≠ []) :
    ∀ (fuel : ℕ) (r : List BFE), (trim r).length ≤ fuel →
      toPoly (divModAux y fuel r).1 * toPoly y + toPoly (divModAux y fuel r).2 = toPoly r ∧
      (trim (divModAux y fuel r).2).length < (trim y).length ∧
      (toPoly (divModAux y fuel r).1).degree + (toPoly y).degree ≤ (toPoly r).degree := by
  intro fuel
  induction fuel with
  | zero =>
    intro r hr
    have hr0 : trim r = [] := List.length_eq_zero.mp (by omega)
    have hrz : toPoly r = 0 := by rw [← toPoly_trim, hr0, toPoly_nil]
    rw [divModAux]
    refine ⟨by simp [toPoly_nil, ← toPoly_trim r, hr0], ?_, by simp [toPoly_nil, hrz]⟩
    rw [trim_idem, hr0]
    simpa using List.length_pos.mpr hy
  | succ fuel ih =>
    intro r hr
    rw [divModAux]
    by_cases hlt : (trim r).length < (trim y).length
    · rw [if_pos hlt]
      refine ⟨by simp [toPoly_nil, toPoly_trim], ?_, by simp [toPoly_nil]⟩
      rw [trim_idem]
      exact hlt
    · rw [if_neg hlt]
      push_neg at hlt
      have hylen : 1 ≤ (trim y).length := List.length_pos.mpr hy
      have hrne : trim r ≠ [] := by
        intro hz
        rw [hz] at hlt
        have h0 : (trim y).length ≤ 0 := by simpa using hlt
        omega
      have hrlast : (trim r).getLastD 0 ≠ 0 := getLastD_ne_zero (trim_trimmed r) hrne
      have hylast : (trim y).getLastD 0 ≠ 0 := getLastD_ne_zero (trim_trimmed y) hy
      have hcne : (trim r).getLastD 0 * invOrZero ((trim y).getLastD 0) ≠ 0 := by
        rw [invOrZero_eq]
        exact mul_ne_zero hrlast (inv_ne_zero hylast)
      have hYne : toPoly (trim y) ≠ 0 := toPoly_ne_zero (trim_trimmed y) hy
      have hRne : toPoly (trim r) ≠ 0 := toPoly_ne_zero (trim_trimmed r) hrne
      have hdegY : (toPoly (trim y)).degree = (((trim y).length - 1 : ℕ) : WithBot ℕ) :=
        degree_toPoly (trim_trimmed y) hy
      have hdegR : (toPoly (trim r)).degree = (((trim r).length - 1 : ℕ) : WithBot ℕ) :=
        degree_toPoly (trim_trimmed r) hrne
      set c := (trim r).getLastD 0 * invOrZero ((trim y).getLastD 0) with hc
      set k := (trim r).length - (trim y).length with hk
      have hdegM : (toPoly (monomial k c)).degree = (k : WithBot ℕ) := by
        rw [toPoly_monomial, degree_C_mul_X_pow k hcne]
      have hB : toPoly (mul (monomial k c) (trim y)) = C c * X ^ k * toPoly (trim y) := by
        rw [toPoly_mul, toPoly_monomial]
      have hdegB : (toPoly (mul (monomial k c) (trim y))).degree =
          (((trim r).length - 1 : ℕ) : WithBot ℕ) := by
        rw [hB, degree_mul, degree_C_mul_X_pow k hcne, hdegY, ← Nat.cast_add]
        congr 1
        omega
      have hkey : c * (trim y).getLastD 0 = (trim r).getLastD 0 := by
        rw [hc, invOrZero_eq, mul_assoc, inv_mul_cancel₀ hylast, mul_one]
      have hlcB : (toPoly (trim r)).leadingCoeff =
          (toPoly (mul (monomial k c) (trim y))).leadingCoeff := by
        rw [hB, leadingCoeff_mul, C_mul_X_pow_eq_monomial, leadingCoeff_monomial,
          leadingCoeff_toPoly (trim_trimmed y) hy,
          leadingCoeff_toPoly (trim_trimmed r) hrne,
          ← getLastD_eq_getLast hy, ← getLastD_eq_getLast hrne, hkey]
      have hsub : toPoly (sub (trim r) (mul (monomial k c) (trim y))) =
          toPoly (trim r) - toPoly (mul (monomial k c) (trim y)) := toPoly_sub _ _
      have hdegsub : (toPoly (sub (trim r) (mul (monomial k c) (trim y)))).degree <
          (((trim r).length - 1 : ℕ) : WithBot ℕ) := by
        rw [hsub, ← hdegR]
        exact degree_sub_lt (hdegR.trans hdegB.symm) hRne hlcB
      have hlensub : (trim (sub (trim r) (mul (monomial k c) (trim y)))).length ≤
          (trim r).length - 1 := by
        apply trim_length_le_of_degree_lt
        exact hdegsub
      have hrec := ih (sub (trim r) (mul (monomial k c) (trim y))) (by omega)
      obtain ⟨hrec1, hrec2, hrec3⟩ := hrec
      refine ⟨?_, hrec2, ?_⟩
      · rw [toPoly_add]
        set qr := divModAux y fuel (sub (trim r) (mul (monomial k c) (trim y))) with hqr
        have : (toPoly (monomial k c) + toPoly qr.1) * toPoly y + toPoly qr.2 =
            toPoly (monomial k c) * toPoly y + (toPoly qr.1 * toPoly y + toPoly qr.2) := by
          ring
        rw [this, hrec1, hsub]
        rw [show toPoly y = toPoly (trim y) from (toPoly_trim y).symm,
          show toPoly r = toPoly (trim r) from (toPoly_trim r).symm, ← toPoly_mul]
        ring
      · rw [toPoly_add]
        set qr := divModAux y fuel (sub (trim r) (mul (monomial k c) (trim y))) with hqr
        have hle1 : (toPoly (monomial k c)).degree + (toPoly y).degree ≤ (toPoly r).degree := by
          rw [hdegM, show toPoly y = toPoly (trim y) from (toPoly_trim y).symm, hdegY,
            show toPoly r = toPoly (trim r) from (toPoly_trim r).symm, hdegR, ← Nat.cast_add]
          have harith : k + ((trim y).length - 1) ≤ (trim r).length - 1 := by omega
          exact_mod_cast harith
        have hle2 : (toPoly qr.1).degree + (toPoly y).degree ≤ (toPoly r).degree := by
          refine le_trans hrec3 ?_
          rw [show toPoly r = toPoly (trim r) from (toPoly_trim r).symm, hdegR]
          exact le_of_lt hdegsub
        calc (toPoly (monomial k c) + toPoly qr.1).degree + (toPoly y).degree
            ≤ max (toPoly (monomial k c)).degree (toPoly qr.1).degree + (toPoly y).degree := by
              apply add_le_add_right
              exact degree_add_le _ _
          _ ≤ (toPoly r).degree := by
              rcases max_cases (toPoly (monomial k c)).degree (toPoly qr.1).degree with
                ⟨hmax, _⟩ | ⟨hmax, _⟩
              · rw [hmax]; exact hle1
              · rw [hmax]; exact hle2

theorem divMod_spec {x y : List BFE} (hy : trim y ≠ []) :
    toPoly (divMod x y).1 * toPoly y + toPoly (divMod x y).2 = toPoly x ∧
    (trim (divMod x y).2).length < (trim y).length ∧
    (toPoly (divMod x y).1).degree + (toPoly y).degree ≤ (toPoly x).degree :=
  divModAux_spec hy _ x (le_refl _)

theorem scale_nil (c : BFE) : scale c [] = [] := rfl

theorem mul_nil (q : List BFE) : mul q [] = [] := by
  show trim (mulAux q []) = []
  induction q with
  | nil => rfl
  | cons a p ih =>
    rw [mulAux, List.map_nil]
    show trim (addAux [] (0 :: mulAux p [])) = []
    rw [addAux, trim, ih]
    simp

theorem addAux_nil (p : List BFE) : addAux p [] = p := by
  cases p <;> rfl

theorem sub_nil (p : List BFE) : sub p [] = trim p := by
  rw [sub, neg, List.map_nil, add, addAux_nil]

theorem xgcdAux_spec : ∀ (fuel : ℕ) (x y : List BFE), (trim y).length < fuel →
    toPoly (xgcdAux fuel x y).2.1 * toPoly x + toPoly (xgcdAux fuel x y).2.2 * toPoly y =
      toPoly (xgcdAux fuel x y).1 ∧
    toPoly (xgcdAux fuel x y).1 ∣ toPoly x ∧
    toPoly (xgcdAux fuel x y).1 ∣ toPoly y ∧
    (trim x ≠ [] → (toPoly (xgcdAux fuel x y).1).Monic) := by
  intro fuel
  induction fuel with
  | zero =>
    intro x y hy
    simp at hy
  | succ fuel ih =>
    intro x y hy
    rw [xgcdAux]
    by_cases h0 : trim y = []
    · rw [if_pos h0]
      simp only
      have hyz : toPoly y = 0 := by rw [← toPoly_trim, h0, toPoly_nil]
      by_cases hx : trim x = []
      · have hxz : toPoly x = 0 := by rw [← toPoly_trim, hx, toPoly_nil]
        rw [hx]
        refine ⟨?_, ?_, ?_, ?_⟩
        · rw [hxz, hyz, scale_nil, toPoly_nil]
          ring
        · rw [scale_nil, toPoly_nil, hxz]
        · rw [scale_nil, toPoly_nil, hyz]
        · intro hcon
          exact absurd rfl hcon
      · have hlcne : (trim x).getLastD 1 ≠ 0 := by
          have h1 : (trim x).getLastD 1 = (trim x).getLastD 0 := by
            rw [List.getLastD_eq_getLast?, List.getLastD_eq_getLast?,
              List.getLast?_eq_getLast _ hx]
            rfl
          rw [h1]
          exact getLastD_ne_zero (trim_trimmed x) hx
        have hicne : invOrZero ((trim x).getLastD 1) ≠ 0 := by
          rw [invOrZero_eq]
          exact inv_ne_zero hlcne
        have htr : Trimmed [invOrZero ((trim x).getLastD 1)] := by
          unfold Trimmed
          simp only [List.getLast?_singleton, ne_eq, Option.some.injEq]
          exact hicne
        refine ⟨?_, ?_, ?_, ?_⟩
        · rw [trim_eq_self htr, toPoly_scale, toPoly_trim, hyz, toPoly_cons, toPoly_nil]
          ring
        · rw [toPoly_scale]
          refine ⟨C ((trim x).getLastD 1), ?_⟩
          rw [toPoly_trim, mul_comm (C (invOrZero ((trim x).getLastD 1))) (toPoly x),
            mul_assoc, ← C_mul, invOrZero_eq, inv_mul_cancel₀ hlcne, C_1, mul_one]
        · rw [hyz]
          exact dvd_zero _
        · intro _
          have hsc : toPoly (scale (invOrZero ((trim x).getLastD 1)) (trim x)) =
              C (invOrZero ((trim x).getLastD 1)) * toPoly (trim x) := toPoly_scale _ _
          rw [Polynomial.Monic, hsc, leadingCoeff_mul, leadingCoeff_C,
            leadingCoeff_toPoly (trim_trimmed x) hx]
          have h1 : (trim x).getLastD 1 = (trim x).getLast hx := by
            rw [List.getLastD_eq_getLast?, List.getLast?_eq_getLast _ hx]
            rfl
          rw [invOrZero_eq, ← h1, inv_mul_cancel₀ hlcne]
    · rw [if_neg h0]
      simp only
      obtain ⟨hdiv, hrlen, hqdeg⟩ := @divMod_spec x y h0
      have hrec := ih y (divMod x y).2 (by omega)
      obtain ⟨hbez, hdy, hdr, hmon⟩ := hrec
      refine ⟨?_, ?_, ?_, ?_⟩
      · rw [toPoly_sub, toPoly_mul]
        linear_combination hbez - toPoly (xgcdAux fuel y (divMod x y).2).2.2 * hdiv
      · rw [← hdiv]
        exact dvd_add (Dvd.dvd.mul_left hdy _) hdr
      · exact hdy
      · intro _
        exact hmon h0

theorem degree_toPoly_lt {p q : List BFE} (hq : trim q ≠ [])
    (h : (trim p).length < (trim q).length) : (toPoly p).degree < (toPoly q).degree := by
  have hdq : (toPoly q).degree = (((trim q).length - 1 : ℕ) : WithBot ℕ) := by
    rw [← toPoly_trim q]
    exact degree_toPoly (trim_trimmed q) hq
  cases htp : trim p with
  | nil =>
    have hpz : toPoly p = 0 := by rw [← toPoly_trim, htp, toPoly_nil]
    rw [hpz, degree_zero, hdq]
    exact WithBot.bot_lt_coe _
  | cons b r =>
    have hne : trim p ≠ [] := by rw [htp]; simp
    have hdp : (toPoly p).degree = (((trim p).length - 1 : ℕ) : WithBot ℕ) := by
      rw [← toPoly_trim p]
      exact degree_toPoly (trim_trimmed p) hne
    rw [hdp, hdq]
    have hq1 : 1 ≤ (trim q).length := by
      cases hq' : trim q with
      | nil => exact absurd hq' hq
      | cons c s => simp
    have harith : (trim p).length - 1 < (trim q).length - 1 := by
      have hp1 : 1 ≤ (trim p).length := by rw [htp]; simp
      omega
    exact_mod_cast harith

theorem xgcdAux_deg : ∀ (fuel : ℕ) (x y : List BFE), (trim y).length < fuel →
    trim y ≠ [] → trim x ≠ [] →
    (toPoly (xgcdAux fuel x y).2.1).degree + (toPoly (xgcdAux fuel x y).1).degree ≤
      (toPoly y).degree ∧
    (toPoly (xgcdAux fuel x y).2.2).degree + (toPoly (xgcdAux fuel x y).1).degree ≤
      max (toPoly x).degree (toPoly y).degree := by
  intro fuel
  induction fuel with
  | zero =>
    intro x y hy
    simp at hy
  | succ fuel ih =>
    intro x y hy h0 hx
    rw [xgcdAux, if_neg h0]
    simp only
    obtain ⟨hdiv, hrlen, hqdeg⟩ := @divMod_spec x y h0
    by_cases hr0 : trim (divMod x y).2 = []
    · -- the remainder is zero: the inner call hits the base case
      have hfuel1 : 1 ≤ fuel := by
        have : 1 ≤ (trim y).length := by
          cases hy' : trim y with
          | nil => exact absurd hy' h0
          | cons c s => simp
        omega
      obtain ⟨f, rfl⟩ : ∃ f, fuel = f + 1 := ⟨fuel - 1, by omega⟩
      rw [xgcdAux, if_pos hr0]
      simp only
      have hlcne : (trim y).getLastD 1 ≠ 0 := by
        have h1 : (trim y).getLastD 1 = (trim y).getLastD 0 := by
          rw [List.getLastD_eq_getLast?, List.getLastD_eq_getLast?,
            List.getLast?_eq_getLast _ h0]
          rfl
        rw [h1]
        exact getLastD_ne_zero (trim_trimmed y) h0
      have hicne : invOrZero ((trim y).getLastD 1) ≠ 0 := by
        rw [invOrZero_eq]
        exact inv_ne_zero hlcne
      have hg : toPoly (scale (invOrZero ((trim y).getLastD 1)) (trim y)) =
          C (invOrZero ((trim y).getLastD 1)) * toPoly y := by
        rw [toPoly_scale, toPoly_trim]
      have hgdeg : (toPoly (scale (invOrZero ((trim y).getLastD 1)) (trim y))).degree =
          (toPoly y).degree := by
        rw [hg, degree_mul, degree_C hicne, zero_add]
      constructor
      · rw [toPoly_nil, degree_zero, WithBot.bot_add]
        exact bot_le
      · rw [mul_nil, sub_nil, trim_idem]
        have htr : Trimmed [invOrZero ((trim y).getLastD 1)] := by
          unfold Trimmed
          simp only [List.getLast?_singleton, ne_eq, Option.some.injEq]
          exact hicne
        rw [trim_eq_self htr]
        have hvdeg : (toPoly [invOrZero ((trim y).getLastD 1)]).degree = 0 := by
          rw [toPoly_cons, toPoly_nil, mul_zero, add_zero]
          exact degree_C hicne
        rw [hvdeg, hgdeg, zero_add]
        exact le_max_right _ _
    · -- nonzero remainder: recurse
      have hih := ih y (divMod x y).2 (by omega) hr0 h0
      obtain ⟨ih1, ih2⟩ := hih
      have hrltY : (toPoly (divMod x y).2).degree < (toPoly y).degree :=
        degree_toPoly_lt h0 hrlen
      have hmax : max (toPoly y).degree (toPoly (divMod x y).2).degree = (toPoly y).degree :=
        max_eq_left (le_of_lt hrltY)
      rw [hmax] at ih2
      constructor
      · exact ih2
      · -- degree of u' − q·v'
        have hsub : (toPoly (sub (xgcdAux fuel y (divMod x y).2).2.1
            (mul (divMod x y).1 (xgcdAux fuel y (divMod x y).2).2.2))).degree ≤
            max (toPoly (xgcdAux fuel y (divMod x y).2).2.1).degree
              ((toPoly (divMod x y).1).degree +
                (toPoly (xgcdAux fuel y (divMod x y).2).2.2).degree) := by
          rw [toPoly_sub, toPoly_mul, ← degree_mul]
          exact degree_sub_le _ _
        refine le_trans (add_le_add_right hsub _) ?_
        rcases max_cases (toPoly (xgcdAux fuel y (divMod x y).2).2.1).degree
            ((toPoly (divMod x y).1).degree +
              (toPoly (xgcdAux fuel y (divMod x y).2).2.2).degree) with ⟨hmx, _⟩ | ⟨hmx, _⟩ <;>
          rw [hmx]
        · refine le_trans ?_ (le_max_right (toPoly x).degree (toPoly y).degree)
          exact le_trans ih1 (le_of_lt hrltY)
        · refine le_trans ?_ (le_max_left (toPoly x).degree (toPoly y).degree)
          calc (toPoly (divMod x y).1).degree +
                (toPoly (xgcdAux fuel y (divMod x y).2).2.2).degree +
                (toPoly (xgcdAux fuel y (divMod x y).2).1).degree
              = (toPoly (divMod x y).1).degree +
                ((toPoly (xgcdAux fuel y (divMod x y).2).2.2).degree +
                 (toPoly (xgcdAux fuel y (divMod x y).2).1).degree) := by
                rw [add_assoc]
            _ ≤ (toPoly (divMod x y).1).degree + (toPoly y).degree := add_le_add_left ih2 _
            _ ≤ (toPoly x).degree := hqdeg

theorem xgcdAux_trimmed : ∀ (fuel : ℕ) (x y : List BFE), Trimmed (xgcdAux fuel x y).1
  | 0, _, _ => by simp [xgcdAux, Trimmed]
  | f + 1, x, y => by
    rw [xgcdAux]
    by_cases h0 : trim y = []
    · rw [if_pos h0]
      exact trim_trimmed _
    · rw [if_neg h0]
      exact xgcdAux_trimmed f y (divMod x y).2

theorem eq_one_list_of_toPoly_eq_one {g : List BFE} (ht : Trimmed g) (h : toPoly g = 1) :
    g = [1] := by
  cases g with
  | nil =>
    rw [toPoly_nil] at h
    exact absurd h.symm one_ne_zero
  | cons a rest =>
    have htrest : Trimmed rest := by
      cases rest with
      | nil => simp [Trimmed]
      | cons b q => simpa [Trimmed, List.getLast?_cons_cons] using ht
    rw [toPoly_cons] at h
    have hrest0 : toPoly rest = 0 := by
      by_contra hne
      have hd : 1 ≤ (X * toPoly rest).degree := by
        rw [degree_mul, degree_X]
        have : 0 ≤ (toPoly rest).degree := zero_le_degree_iff.mpr hne
        exact le_trans (by norm_num) (add_le_add_left this 1)
      have hdeg : (C a + X * toPoly rest).degree = (X * toPoly rest).degree := by
        apply degree_add_eq_right_of_degree_lt
        exact lt_of_le_of_lt degree_C_le (lt_of_lt_of_le (by norm_num) hd)
      rw [h] at hdeg
      rw [degree_one] at hdeg
      rw [← hdeg] at hd
      norm_num at hd
    have hrestnil : rest = [] := by
      by_contra hne
      exact toPoly_ne_zero htrest hne hrest0
    subst hrestnil
    rw [toPoly_nil, mul_zero, add_zero] at h
    have : a = 1 := by
      have := congrArg (fun p => Polynomial.coeff p 0) h
      simpa using this
    rw [this]

theorem toPoly_foldl_linear (l : List (BFE × List (BFE × BFE))) :
    ∀ init : List BFE,
      toPoly (l.foldl (fun acc g => mul acc [-g.1, 1]) init) =
        toPoly init * (l.map (fun g => X - C g.1)).prod := by
  induction l with
  | nil =>
    intro init
    simp
  | cons g rest ih =>
    intro init
    rw [List.foldl_cons, ih, List.map_cons, List.prod_cons, toPoly_mul]
    have hlin : toPoly [-g.1, 1] = X - C g.1 := by
      rw [toPoly_cons, toPoly_cons, toPoly_nil]
      rw [map_neg, C_1]
      ring
    rw [hlin]
    ring

theorem monic_prod_linear (l : List (BFE × List (BFE × BFE))) :
    ((l.map fun g : BFE × List (BFE × BFE) => X - C g.1).prod).Monic := by
  induction l with
  | nil => exact monic_one
  | cons g rest ih => exact (monic_X_sub_C g.1).mul ih

theorem degree_prod_linear (l : List (BFE × List (BFE × BFE))) :
    ((l.map fun g : BFE × List (BFE × BFE) => X - C g.1).prod).degree = (l.length : WithBot ℕ) := by
  induction l with
  | nil => simp
  | cons g rest ih =>
    rw [List.map_cons, List.prod_cons, degree_mul, degree_X_sub_C, ih, List.length_cons]
    exact_mod_cast (by omega : 1 + rest.length = rest.length + 1)

theorem separable_ramp_polynomial (groups : List (BFE × List (BFE × BFE)))
    (hnd : (groups.map Prod.fst).Nodup) :
    ((groups.map fun g : BFE × List (BFE × BFE) => X - C g.1).prod).Separable := by
  have hmm : (groups.map fun g : BFE × List (BFE × BFE) => X - C g.1).prod =
      ((groups.map Prod.fst).map fun k => X - C k).prod := by
    rw [List.map_map]
    rfl
  rw [hmm, ← List.prod_toFinset _ hnd]
  exact separable_prod_X_sub_C_iff'.mpr fun x _ y _ h => h

theorem gcd_checks (groups : List (BFE × List (BFE × BFE)))
    (hnd : (groups.map Prod.fst).Nodup) (hne : groups ≠ []) :
    isOne (xgcd (groups.foldl (fun acc g => mul acc [-g.1, 1]) [1])
      (BPoly.derivative (groups.foldl (fun acc g => mul acc [-g.1, 1]) [1]))).1 ∧
    BPoly.degree (xgcd (groups.foldl (fun acc g => mul acc [-g.1, 1]) [1])
      (BPoly.derivative (groups.foldl (fun acc g => mul acc [-g.1, 1]) [1]))).2.1 <
      (groups.length : ℤ) ∧
    BPoly.degree (xgcd (groups.foldl (fun acc g => mul acc [-g.1, 1]) [1])
      (BPoly.derivative (groups.foldl (fun acc g => mul acc [-g.1, 1]) [1]))).2.2 ≤
      (groups.length : ℤ) := by
  have hPP : toPoly (groups.foldl (fun acc g => mul acc [-g.1, 1]) [1]) =
      ((groups.map fun g : BFE × List (BFE × BFE) => X - C g.1).prod) := by
    rw [toPoly_foldl_linear, toPoly_cons, toPoly_nil, mul_zero, add_zero, C_1, one_mul]
  have hPmonic := monic_prod_linear groups
  have hPne : toPoly (groups.foldl (fun acc g => mul acc [-g.1, 1]) [1]) ≠ 0 := by
    rw [hPP]
    exact hPmonic.ne_zero
  have htrP : trim (groups.foldl (fun acc g => mul acc [-g.1, 1]) [1]) ≠ [] := by
    intro h
    exact hPne (by rw [← toPoly_trim, h, toPoly_nil])
  have hsep : (toPoly (groups.foldl (fun acc g => mul acc [-g.1, 1]) [1])).Separable := by
    rw [hPP]
    exact separable_ramp_polynomial groups hnd
  have hFP : toPoly (BPoly.derivative (groups.foldl (fun acc g => mul acc [-g.1, 1]) [1])) =
      Polynomial.derivative (toPoly (groups.foldl (fun acc g => mul acc [-g.1, 1]) [1])) :=
    toPoly_derivative _
  have hcop : IsCoprime (toPoly (groups.foldl (fun acc g => mul acc [-g.1, 1]) [1]))
      (Polynomial.derivative (toPoly (groups.foldl (fun acc g => mul acc [-g.1, 1]) [1]))) :=
    hsep
  have hPdeg : (toPoly (groups.foldl (fun acc g => mul acc [-g.1, 1]) [1])).degree =
      (groups.length : WithBot ℕ) := by
    rw [hPP]
    exact degree_prod_linear groups
  have hn1 : 1 ≤ groups.length := by
    cases groups with
    | nil => exact absurd rfl hne
    | cons g rest => simp
  have hFne : toPoly (BPoly.derivative (groups.foldl (fun acc g => mul acc [-g.1, 1]) [1])) ≠ 0 := by
    intro h
    rw [hFP] at h
    rw [h] at hcop
    have hunit := isCoprime_zero_right.mp hcop
    have hd0 := Polynomial.degree_eq_zero_of_isUnit hunit
    rw [hPdeg] at hd0
    have : groups.length = 0 := by exact_mod_cast hd0
    omega
  have htrF : trim (BPoly.derivative (groups.foldl (fun acc g => mul acc [-g.1, 1]) [1])) ≠ [] := by
    intro h
    exact hFne (by rw [← toPoly_trim, h, toPoly_nil])
  have hdFlt : (toPoly (BPoly.derivative (groups.foldl (fun acc g => mul acc [-g.1, 1]) [1]))).degree <
      (toPoly (groups.foldl (fun acc g => mul acc [-g.1, 1]) [1])).degree := by
    rw [hFP]
    exact Polynomial.degree_derivative_lt hPne
  obtain ⟨hbez, hdP, hdF, hmon⟩ := xgcdAux_spec
    ((trim (BPoly.derivative (groups.foldl (fun acc g => mul acc [-g.1, 1]) [1]))).length + 1)
    (groups.foldl (fun acc g => mul acc [-g.1, 1]) [1])
    (BPoly.derivative (groups.foldl (fun acc g => mul acc [-g.1, 1]) [1])) (by omega)
  obtain ⟨hu, hv⟩ := xgcdAux_deg
    ((trim (BPoly.derivative (groups.foldl (fun acc g => mul acc [-g.1, 1]) [1]))).length + 1)
    (groups.foldl (fun acc g => mul acc [-g.1, 1]) [1])
    (BPoly.derivative (groups.foldl (fun acc g => mul acc [-g.1, 1]) [1])) (by omega) htrF htrP
  rw [xgcd]
  have hunitg : IsUnit (toPoly (xgcdAux
      ((trim (BPoly.derivative (groups.foldl (fun acc g => mul acc [-g.1, 1]) [1]))).length + 1)
      (groups.foldl (fun acc g => mul acc [-g.1, 1]) [1])
      (BPoly.derivative (groups.foldl (fun acc g => mul acc [-g.1, 1]) [1]))).1) :=
    hcop.isUnit_of_dvd' hdP (hFP ▸ hdF)
  have hg1 : toPoly (xgcdAux
      ((trim (BPoly.derivative (groups.foldl (fun acc g => mul acc [-g.1, 1]) [1]))).length + 1)
      (groups.foldl (fun acc g => mul acc [-g.1, 1]) [1])
      (BPoly.derivative (groups.foldl (fun acc g => mul acc [-g.1, 1]) [1]))).1 = 1 :=
    (hmon htrP).eq_one_of_isUnit hunitg
  have hglist := eq_one_list_of_toPoly_eq_one (xgcdAux_trimmed _ _ _) hg1
  refine ⟨?_, ?_, ?_⟩
  · rw [isOne, hglist]
    decide
  · have hg0 : (toPoly (xgcdAux
        ((trim (BPoly.derivative (groups.foldl (fun acc g => mul acc [-g.1, 1]) [1]))).length + 1)
        (groups.foldl (fun acc g => mul acc [-g.1, 1]) [1])
        (BPoly.derivative (groups.foldl (fun acc g => mul acc [-g.1, 1]) [1]))).1).degree = 0 := by
      rw [hg1, degree_one]
    rw [hg0, add_zero] at hu
    have hlt : (toPoly (xgcdAux
        ((trim (BPoly.derivative (groups.foldl (fun acc g => mul acc [-g.1, 1]) [1]))).length + 1)
        (groups.foldl (fun acc g => mul acc [-g.1, 1]) [1])
        (BPoly.derivative (groups.foldl (fun acc g => mul acc [-g.1, 1]) [1]))).2.1).degree <
        ((groups.length : ℕ) : WithBot ℕ) := by
      rw [← hPdeg]
      exact lt_of_le_of_lt hu hdFlt
    have hlen := trim_length_le_of_degree_lt hlt
    rw [BPoly.degree]
    omega
  · have hg0 : (toPoly (xgcdAux
        ((trim (BPoly.derivative (groups.foldl (fun acc g => mul acc [-g.1, 1]) [1]))).length + 1)
        (groups.foldl (fun acc g => mul acc [-g.1, 1]) [1])
        (BPoly.derivative (groups.foldl (fun acc g => mul acc [-g.1, 1]) [1]))).1).degree = 0 := by
      rw [hg1, degree_one]
    rw [hg0, add_zero, max_eq_left (le_of_lt hdFlt), hPdeg] at hv
    have hlen := trim_length_le_of_degree_le hv
    rw [BPoly.degree]
    omega

end BPoly

/-- The number of RAMP changes along the remaining row triples, starting
from the current row's RAMP: one Bézout-coefficient pair is popped per
change. -/
def rampChanges : BFE → List (BFE × BFE × BFE) → ℕ
  | _, [] => 0
  | r, (_, ramp, _) :: rest => (if ramp ≠ r then 1 else 0) + rampChanges ramp rest

theorem fillPairsAux_total : ∀ (rest : List (BFE × BFE × BFE)) (curr : RamRow)
    (q0 q1 jumps : List BFE),
    q0.length = rampChanges curr.ramp rest → q1.length = rampChanges curr.ramp rest →
    ∃ rows jumps', fillPairsAux curr rest q0 q1 jumps = .ok (rows, jumps', [], []) := by
  intro rest
  induction rest with
  | nil =>
    intro curr q0 q1 jumps h0 h1
    rw [rampChanges] at h0 h1
    rw [List.length_eq_zero] at h0 h1
    subst h0 h1
    exact ⟨[curr], jumps, rfl⟩
  | cons t rest' ih =>
    intro curr q0 q1 jumps h0 h1
    obtain ⟨clk, ramp, ramv⟩ := t
    rw [rampChanges] at h0 h1
    by_cases hne : ramp ≠ curr.ramp
    · rw [if_pos hne] at h0 h1
      cases q0 with
      | nil => simp only [List.length_nil] at h0; omega
      | cons c0 q0' =>
        cases q1 with
        | nil => simp only [List.length_nil] at h1; omega
        | cons c1 q1' =>
          simp only [List.length_cons] at h0 h1
          have hsub : ramp - curr.ramp ≠ 0 := sub_ne_zero.mpr hne
          obtain ⟨rows, jumps', hrec⟩ := ih
            { zeroRamRow with
                clk := clk, ramp := ramp, ramv := ramv, bcpc0 := c0, bcpc1 := c1 }
            q0' q1'
            (if (clk - curr.clk).val > 1 then jumps ++ [clk - curr.clk] else jumps)
            (by show q0'.length = rampChanges ramp rest'; omega)
            (by show q1'.length = rampChanges ramp rest'; omega)
          refine ⟨{ curr with
              clk_di := invOrZero (clk - curr.clk - 1), iord := invOrZero (ramp - curr.ramp) } ::
              rows, jumps', ?_⟩
          simp only [fillPairsAux, if_pos hsub]
          rw [hrec]
          rfl
    · rw [if_neg hne] at h0 h1
      rw [not_not] at hne
      have hsub : ¬ (ramp - curr.ramp ≠ 0) := by
        rw [not_not, hne, sub_self]
      obtain ⟨rows, jumps', hrec⟩ := ih
        { zeroRamRow with
            clk := clk, ramp := ramp, ramv := ramv, bcpc0 := curr.bcpc0, bcpc1 := curr.bcpc1 }
        q0 q1 jumps
        (by show q0.length = rampChanges ramp rest'; omega)
        (by show q1.length = rampChanges ramp rest'; omega)
      refine ⟨{ curr with
          clk_di := invOrZero (clk - curr.clk - 1), iord := invOrZero (ramp - curr.ramp) } ::
          rows, jumps', ?_⟩
      simp only [fillPairsAux, if_neg hsub]
      rw [hrec]
      rfl

theorem insertGrouped_values_ne_nil {acc : List (BFE × List (BFE × BFE))}
    (h : ∀ g ∈ acc, g.2 ≠ []) (r : BFE) (e : BFE × BFE) :
    ∀ g ∈ insertGrouped acc r e, g.2 ≠ [] := by
  induction acc with
  | nil =>
    intro g hg
    simp only [insertGrouped, List.mem_singleton] at hg
    subst hg
    simp
  | cons a rest ih =>
    obtain ⟨k, v⟩ := a
    intro g hg
    by_cases hk : k = r
    · rw [insertGrouped, if_pos hk] at hg
      rcases List.mem_cons.mp hg with rfl | hmem
      · simp
      · exact h _ (List.mem_cons_of_mem _ hmem)
    · rw [insertGrouped, if_neg hk] at hg
      rcases List.mem_cons.mp hg with rfl | hmem
      · exact h _ (List.mem_cons_self _ _)
      · exact ih (fun g' hg' => h g' (List.mem_cons_of_mem _ hg')) g hmem

theorem preProcessedRamTable_values_ne_nil (rows : List ProcessorRow) :
    ∀ g ∈ preProcessedRamTable rows, g.2 ≠ [] := by
  suffices hgen : ∀ acc : List (BFE × List (BFE × BFE)), (∀ g ∈ acc, g.2 ≠ []) →
      ∀ g ∈ rows.foldl (fun acc r => insertGrouped acc r.ramp (r.clk, r.ramv)) acc, g.2 ≠ [] by
    exact hgen [] (by simp)
  induction rows with
  | nil => intro acc hacc; simpa using hacc
  | cons r rest ih =>
    intro acc hacc
    simp only [List.foldl_cons]
    exact ih _ (insertGrouped_values_ne_nil hacc _ _)

theorem insertGrouped_total_length (acc : List (BFE × List (BFE × BFE))) (r : BFE)
    (e : BFE × BFE) :
    ((insertGrouped acc r e).map (fun g => g.2.length)).sum =
      (acc.map (fun g => g.2.length)).sum + 1 := by
  induction acc with
  | nil => simp [insertGrouped]
  | cons a rest ih =>
    obtain ⟨k, v⟩ := a
    by_cases hk : k = r
    · rw [insertGrouped, if_pos hk]
      simp only [List.map_cons, List.sum_cons, List.length_append, List.length_cons,
        List.length_nil]
      omega
    · rw [insertGrouped, if_neg hk]
      simp only [List.map_cons, List.sum_cons, ih]
      omega

theorem preProcessedRamTable_total_length (rows : List ProcessorRow) :
    ((preProcessedRamTable rows).map (fun g => g.2.length)).sum = rows.length := by
  suffices hgen : ∀ acc : List (BFE × List (BFE × BFE)),
      ((rows.foldl (fun acc r => insertGrouped acc r.ramp (r.clk, r.ramv)) acc).map
        (fun g => g.2.length)).sum = (acc.map (fun g => g.2.length)).sum + rows.length by
    simpa using hgen []
  induction rows with
  | nil => intro acc; simp
  | cons r rest ih =>
    intro acc
    simp only [List.foldl_cons, List.length_cons]
    rw [ih, insertGrouped_total_length]
    omega

theorem layoutTriples_length (groups : List (BFE × List (BFE × BFE))) :
    (layoutTriples groups).length = (groups.map (fun g => g.2.length)).sum := by
  induction groups with
  | nil => rfl
  | cons g rest ih =>
    simp only [layoutTriples, List.flatMap_cons, List.length_append, List.length_map,
      List.map_cons, List.sum_cons] at *
    omega

theorem preProcessedRamTable_ne_nil {rows : List ProcessorRow} (h : rows ≠ []) :
    preProcessedRamTable rows ≠ [] := by
  intro hnil
  have := preProcessedRamTable_total_length rows
  rw [hnil] at this
  simp only [List.map_nil, List.sum_nil] at this
  cases rows with
  | nil => exact h rfl
  | cons r rest => simp at this

theorem rampChanges_group : ∀ (vs : List (BFE × BFE)) (k r : BFE) (t : List (BFE × BFE × BFE)),
    vs ≠ [] → rampChanges r ((vs.map fun cv => (cv.1, k, cv.2)) ++ t) =
      (if k ≠ r then 1 else 0) + rampChanges k t := by
  intro vs
  induction vs with
  | nil => intro k r t h; exact absurd rfl h
  | cons v vs' ih =>
    intro k r t _
    cases vs' with
    | nil => rfl
    | cons w ws =>
      have hih := ih k k t (by simp)
      rw [List.map_cons, List.cons_append, rampChanges, hih]
      simp

theorem rampChanges_flatten : ∀ (groups : List (BFE × List (BFE × BFE))) (r : BFE),
    (∀ g ∈ groups, g.2 ≠ []) → List.Chain' (· ≠ ·) (r :: groups.map Prod.fst) →
    rampChanges r (layoutTriples groups) = groups.length := by
  intro groups
  induction groups with
  | nil => intro r _ _; rfl
  | cons g gs ih =>
    intro r hvals hch
    rw [List.map_cons, List.chain'_cons] at hch
    obtain ⟨hrg, hch'⟩ := hch
    have hg2 : g.2 ≠ [] := hvals g (List.mem_cons_self _ _)
    rw [layoutTriples, List.flatMap_cons]
    show rampChanges r ((g.2.map fun cv => (cv.1, g.1, cv.2)) ++ layoutTriples gs) =
      (g :: gs).length
    rw [rampChanges_group g.2 g.1 r (layoutTriples gs) hg2, if_pos (Ne.symm hrg)]
    rw [ih g.1 (fun g' hg' => hvals g' (List.mem_cons_of_mem _ hg')) hch']
    rw [List.length_cons]
    omega

theorem resize_length (p : List BFE) (n : ℕ) : (BPoly.resize p n).length = n := by
  rw [BPoly.resize]
  simp only [List.length_append, List.length_take, List.length_replicate]
  omega

theorem reverse_resize_ne_nil (p : List BFE) {n : ℕ} (hn : 1 ≤ n) :
    ∃ a l, (BPoly.resize p n).reverse = a :: l := by
  cases hc : (BPoly.resize p n).reverse with
  | nil =>
    have hlen := congrArg List.length hc
    rw [List.length_reverse, resize_length] at hlen
    simp only [List.length_nil] at hlen
    omega
  | cons a l => exact ⟨a, l, rfl⟩

theorem reverse_resize_tail_length {p : List BFE} {n : ℕ} {a : BFE} {l : List BFE}
    (hc : (BPoly.resize p n).reverse = a :: l) : l.length = n - 1 := by
  have hlen := congrArg List.length hc
  rw [List.length_reverse, resize_length, List.length_cons] at hlen
  omega

theorem fillTrace_total (aet : AlgebraicExecutionTrace) (h : aet.processor_matrix ≠ []) :
    ∃ rows jumps, fillTrace aet = .ok (rows, jumps) := by
  cases hres : fillTrace aet with
  | ok res =>
    obtain ⟨r1, r2⟩ := res
    exact ⟨r1, r2, rfl⟩
  | error e =>
    exfalso
    have hgne := preProcessedRamTable_ne_nil h
    have hnd := preProcessedRamTable_keys_nodup aet.processor_matrix
    have hvals := preProcessedRamTable_values_ne_nil aet.processor_matrix
    obtain ⟨hone, hdeg0, hdeg1⟩ := BPoly.gcd_checks _ hnd hgne
    have hnlen : 1 ≤ (preProcessedRamTable aet.processor_matrix).length := by
      cases hgg : preProcessedRamTable aet.processor_matrix with
      | nil => exact absurd hgg hgne
      | cons a l => simp
    obtain ⟨ghead, gtail, hg⟩ : ∃ a l, preProcessedRamTable aet.processor_matrix = a :: l := by
      cases hgg : preProcessedRamTable aet.processor_matrix with
      | nil => exact absurd hgg hgne
      | cons a l => exact ⟨a, l, rfl⟩
    obtain ⟨v1, vs1, hvs⟩ : ∃ v vs, ghead.2 = v :: vs := by
      have hne2 := hvals ghead (by rw [hg]; exact List.mem_cons_self _ _)
      cases hv : ghead.2 with
      | nil => exact absurd hv hne2
      | cons v vs => exact ⟨v, vs, rfl⟩
    have htrip : layoutTriples (preProcessedRamTable aet.processor_matrix) =
        (v1.1, ghead.1, v1.2) ::
          ((vs1.map fun cv => (cv.1, ghead.1, cv.2)) ++ layoutTriples gtail) := by
      rw [hg, layoutTriples, List.flatMap_cons, hvs, List.map_cons, List.cons_append]
      rfl
    have hch : rampChanges ghead.1
        ((vs1.map fun cv => (cv.1, ghead.1, cv.2)) ++ layoutTriples gtail) = gtail.length := by
      have hflat : rampChanges ghead.1 (layoutTriples gtail) = gtail.length := by
        apply rampChanges_flatten
        · intro g' hg'
          exact hvals g' (by rw [hg]; exact List.mem_cons_of_mem _ hg')
        · have hnd2 : ((ghead :: gtail).map Prod.fst).Nodup := by rw [← hg]; exact hnd
          rw [List.map_cons] at hnd2
          exact List.Pairwise.chain' hnd2
      by_cases hvs1 : vs1 = []
      · subst hvs1
        simpa using hflat
      · rw [rampChanges_group vs1 ghead.1 ghead.1 _ hvs1, if_neg (by simp), hflat]
        simp
    have hlen : (layoutTriples (preProcessedRamTable aet.processor_matrix)).length =
        aet.processor_matrix.length := by
      rw [layoutTriples_length, preProcessedRamTable_total_length]
    have hglen : (preProcessedRamTable aet.processor_matrix).length = gtail.length + 1 := by
      rw [hg, List.length_cons]
    simp only [fillTrace] at hres
    rw [if_neg (not_not_intro hone), if_neg (not_not_intro hdeg0),
      if_neg (not_not_intro hdeg1)] at hres
    split at hres
    · rename_i c0 q0 c1 q1 hq0 hq1
      rw [if_neg (not_not_intro hlen)] at hres
      split at hres
      · rename_i heq
        rw [htrip] at heq
        cases heq
      · rename_i clk ramp ramv rest heq
        rw [htrip] at heq
        injection heq with heq1 heq2
        rw [Prod.mk.injEq, Prod.mk.injEq] at heq1
        obtain ⟨hclk, hramp, hramv⟩ := heq1
        subst hclk hramp hramv heq2
        have hq0len : q0.length = gtail.length := by
          have := reverse_resize_tail_length hq0
          omega
        have hq1len : q1.length = gtail.length := by
          have := reverse_resize_tail_length hq1
          omega
        obtain ⟨rows, jumps, hfill⟩ := fillPairsAux_total
          ((vs1.map fun cv => (cv.1, ghead.1, cv.2)) ++ layoutTriples gtail)
          { zeroRamRow with
              clk := v1.1, ramp := ghead.1, ramv := v1.2, bcpc0 := c0, bcpc1 := c1 }
          q0 q1 []
          (by show q0.length = rampChanges ghead.1 _; rw [hch]; exact hq0len)
          (by show q1.length = rampChanges ghead.1 _; rw [hch]; exact hq1len)
        split at hres
        · rename_i e2 heqf
          rw [hfill] at heqf
          cases heqf
        · rename_i rows2 jumps2 q0fin q1fin heqf
          rw [hfill] at heqf
          injection heqf with heqf
          rw [Prod.mk.injEq, Prod.mk.injEq, Prod.mk.injEq] at heqf
          obtain ⟨-, -, hq0fin, hq1fin⟩ := heqf
          rw [if_pos ⟨hq0fin.symm, hq1fin.symm⟩] at hres
          cases hres
    · rename_i hnomatch
      obtain ⟨a0, l0, hc0⟩ := reverse_resize_ne_nil (BPoly.xgcd
        ((preProcessedRamTable aet.processor_matrix).foldl
          (fun acc g => BPoly.mul acc [-g.1, 1]) [1])
        (BPoly.derivative ((preProcessedRamTable aet.processor_matrix).foldl
          (fun acc g => BPoly.mul acc [-g.1, 1]) [1]))).2.1 hnlen
      obtain ⟨a1, l1, hc1⟩ := reverse_resize_ne_nil (BPoly.xgcd
        ((preProcessedRamTable aet.processor_matrix).foldl
          (fun acc g => BPoly.mul acc [-g.1, 1]) [1])
        (BPoly.derivative ((preProcessedRamTable aet.processor_matrix).foldl
          (fun acc g => BPoly.mul acc [-g.1, 1]) [1]))).2.2 hnlen
      exact hnomatch a0 l0 a1 l1 hc0 hc1

/-- A three-row trace touching two distinct RAM addresses, used as the
concrete instance for the `fill_trace` totality claims. -/
def c5Aet : AlgebraicExecutionTrace :=
  { processor_matrix := [⟨0, 7, 3⟩, ⟨1, 7, 4⟩, ⟨2, 9, 1⟩], hash_matrix := [] }

/-- **C5.** For every AET with at least one processor row, the three
internal-consistency assertions after the extended-GCD computation in
`fill_trace` never fire: the grouped addresses are pairwise distinct, so
the gcd of the ramp polynomial and its formal derivative is `1` and the
two Bézout-coefficient degree bounds hold; `fill_trace` never returns
any of the three assertion errors. -/
theorem c5_gcd_asserts_unreachable (aet : AlgebraicExecutionTrace)
    (h : aet.processor_matrix ≠ []) :
    fillTrace aet ≠ .error .gcdNotOne ∧
    fillTrace aet ≠ .error .bezoutCoefficient0Degree ∧
    fillTrace aet ≠ .error .bezoutCoefficient1Degree := by
  obtain ⟨rows, jumps, hok⟩ := fillTrace_total aet h
  rw [hok]
  refine ⟨?_, ?_, ?_⟩ <;> intro hc <;> cases hc

theorem c5_gcd_asserts_unreachable_witness :
    c5Aet.processor_matrix ≠ [] ∧
    (fillTrace c5Aet ≠ .error .gcdNotOne ∧
     fillTrace c5Aet ≠ .error .bezoutCoefficient0Degree ∧
     fillTrace c5Aet ≠ .error .bezoutCoefficient1Degree) :=
  ⟨by decide, c5_gcd_asserts_unreachable c5Aet (by decide)⟩

/-- **C9.** (amended) `fill_trace` is total exactly on the AETs with at
least one processor row: for such an AET the whole pipeline — the three
assertions, both coefficient-queue pops, the row-count check, the
row-pair loop and the final drained-queue checks — succeeds and an `ok`
table is returned. -/
theorem c9_fillTrace_total_on_nonempty (aet : AlgebraicExecutionTrace)
    (h : aet.processor_matrix ≠ []) :
    ∃ rows jumps, fillTrace aet = .ok (rows, jumps) :=
  fillTrace_total aet h

theorem c9_fillTrace_total_on_nonempty_witness :
    c5Aet.processor_matrix ≠ [] ∧
    ∃ rows jumps, fillTrace c5Aet = .ok (rows, jumps) :=
  ⟨by decide, c9_fillTrace_total_on_nonempty c5Aet (by decide)⟩

/-- **C9, counterexample to the claimed failure mode.** On the empty AET,
`fill_trace` does fail — but at the Bézout-coefficient-0 degree assertion
(`0 < 0` is false), not at a queue pop or at the `len - 1` loop bound:
the asserts precede both. -/
theorem c9_empty_trace_fails_at_degree_assert :
    fillTrace { processor_matrix := [], hash_matrix := [] } =
      .error .bezoutCoefficient0Degree ∧
    fillTrace { processor_matrix := [], hash_matrix := [] } ≠ .error .popFailed ∧
    fillTrace { processor_matrix := [], hash_matrix := [] } ≠
      .error .loopBoundUnderflow := by
  decide
